import Mathlib

/-!
Verification development for a family of chunked streaming compression
filter drivers (temsxz.c, decompress_xz.c, decompress_zstd.c,
decompress_gzip.c, embedded/temsxz.c).

Shallow embedding conventions:
* bytes are `Nat` (only identity of bytes matters to the drivers);
* C strings are `List Nat` of ASCII codes (C `char` comparisons are
  integer comparisons; index past the end reads the NUL terminator 0);
* the input stream is a list of chunks, one per `fread` call; a read on
  an exhausted stream returns 0 bytes; the end-of-file flag becomes true
  once the final chunk has been delivered;
* each codec engine is an opaque stateful step function (the engines are
  external libraries, out of scope of the repository; the spec specifies
  them only through the backend capability contract of section 4.3);
* every loop is driven by explicit fuel and also returns the list of
  observable events (reads, engine invocations, writes) of the run, so
  that temporal properties are stated over the event trace.
-/

def CHUNK : Nat := 16384

abbrev Byte := Nat

/-- A C byte-stream chunk list joined into the underlying byte sequence. -/
def listJoin : List (List Byte) → List Byte
  | [] => []
  | c :: rest => c ++ listJoin rest

/- ===================================================================
   CLI argument parser of temsxz.c (main, argument loop).
   =================================================================== -/

/-- Character of a C string at index `i`; reading at or past the end of the
list yields the NUL terminator, code 0. -/
def cAt (a : List Nat) (i : Nat) : Nat := a.getD i 0

/-- The distinct process-exit paths of the temsxz.c argument loop. -/
inductive ParseExit
  | helpExit
  | versionExit
  | rangeErr
  | unknownOpt
deriving DecidableEq, Repr

/-- Exit status of each argument-loop exit path in temsxz.c. -/
def ParseExit.toCode : ParseExit → Nat
  | .helpExit => 0
  | .versionExit => 0
  | .rangeErr => 1
  | .unknownOpt => 1

/-- Number of lines printed to the error stream on each exit path
(print_usage is one fprintf call; print_version is three; the range error
is one; the unknown-option path is two). -/
def ParseExit.stderrLines : ParseExit → Nat
  | .helpExit => 1
  | .versionExit => 3
  | .rangeErr => 1
  | .unknownOpt => 2

/-- Result of the temsxz.c argument loop: either an early exit, or the
configuration that reaches stream processing (`compress` keeps the C int
encoding resolved after the loop: 0 = decompress, 1 = compress). -/
inductive ParseResult
  | exit (e : ParseExit)
  | run (compress : Int) (level : Int) (extreme : Bool)
deriving DecidableEq, Repr

/-- ASCII codes: '-' 45, '0' 48, '9' 57, 'c' 99, 'd' 100, 'e' 101,
'h' 104, 'v' 118. -/
def strHelp : List Nat := [45, 104]

def strHelpLong : List Nat := [45, 45, 104, 101, 108, 112]

def strVersion : List Nat := [45, 118]

def strVersionLong : List Nat := [45, 45, 118, 101, 114, 115, 105, 111, 110]

def strCompress : List Nat := [45, 99]

def strDecompress : List Nat := [45, 100]

def strExtreme : List Nat := [45, 101]

/-- The argument loop of temsxz.c main, one branch per source branch, in
source order.  State: `compress` (-1 undefined, 0 decompress, 1 compress),
`level`, `extreme`.  The final defaulting `if (compress == -1) compress = 0`
is applied when the argument list is exhausted. -/
def parseLoop : List (List Nat) → Int → Int → Bool → ParseResult
  | [], compress, level, extreme =>
      .run (if compress = -1 then 0 else compress) level extreme
  | a :: rest, compress, level, extreme =>
      if a = strHelp ∨ a = strHelpLong then .exit .helpExit
      else if a = strVersion ∨ a = strVersionLong then .exit .versionExit
      else if a = strCompress then parseLoop rest 1 level extreme
      else if a = strDecompress then parseLoop rest 0 level extreme
      else if cAt a 0 = 45 ∧ 48 ≤ cAt a 1 ∧ cAt a 1 ≤ 57 ∧ cAt a 2 = 0 then
        if ((cAt a 1 : Int) - 48) < 0 ∨ ((cAt a 1 : Int) - 48) > 9 then
          .exit .rangeErr
        else parseLoop rest compress ((cAt a 1 : Int) - 48) extreme
      else if a = strExtreme then parseLoop rest compress level true
      else .exit .unknownOpt

/-- Argument parsing entry point with the C defaults: direction undefined,
level 6, extreme off. -/
def parseArgs (args : List (List Nat)) : ParseResult :=
  parseLoop args (-1) 6 false

/-- An argument is recognized when it matches one of the accepting branches
of the temsxz.c argument loop. -/
def recognizedB (a : List Nat) : Bool :=
  a = strHelp ∨ a = strHelpLong ∨ a = strVersion ∨ a = strVersionLong ∨
  a = strCompress ∨ a = strDecompress ∨
  (cAt a 0 = 45 ∧ 48 ≤ cAt a 1 ∧ cAt a 1 ≤ 57 ∧ cAt a 2 = 0) ∨
  a = strExtreme

/-- True exactly on the level-out-of-range exit path. -/
def ParseResult.isRangeErr : ParseResult → Bool
  | .exit .rangeErr => true
  | _ => false

/-- True when the result either exited early or carries a level in [0, 9]. -/
def ParseResult.levelInRange : ParseResult → Bool
  | .exit _ => true
  | .run _ lv _ => decide (0 ≤ lv ∧ lv ≤ 9)

/- ===================================================================
   Zstandard decoder driver (decompress_zstd.c).
   The engine is external (libzstd); it is modelled as an opaque step
   function following the spec's backend capability contract.
   =================================================================== -/

/-- Return value of one ZSTD_decompressStream call: an error, or a size
hint where 0 means the current frame is complete. -/
inductive ZRet
  | err
  | hint (n : Nat)
deriving DecidableEq, Repr

/-- Outcome of one engine invocation: new engine state, input bytes
consumed, output bytes produced, return value. -/
structure ZstdStepOut (σ : Type) where
  st : σ
  consumed : Nat
  produced : List Byte
  ret : ZRet

/-- Modelled from the spec: the Zstandard decode engine
(ZSTD_decompressStream) of section 4.3, an opaque stateful transform that
consumes part of the input window and fills part of the output window. -/
structure ZstdDec (σ : Type) where
  step : σ → List Byte → Nat → ZstdStepOut σ

/-- Engine well-formedness from the backend capability contract: it never
consumes more input than offered nor produces more output than fits. -/
def ZstdWF {σ : Type} (E : ZstdDec σ) : Prop :=
  ∀ s inp cap, (E.step s inp cap).consumed ≤ inp.length ∧
    (E.step s inp cap).produced.length ≤ cap

/-- Observable events of one decompress_zstd.c run: a read (with the input
cursors right before it and the byte count obtained), an engine invocation
(with the cursors right after it), a write. -/
inductive ZEv
  | read (posBefore sizeBefore got : Nat)
  | code (ret : ZRet) (producedLen posAfter sizeAfter : Nat)
  | write (n : Nat)
deriving DecidableEq, Repr

/-- Driver state of decompress_zstd.c: engine, pending stream chunks, the
input buffer contents with its consumption cursor (`input.pos`; the fill
level `input.size` is `inBuf.length`), and bytes written so far. -/
structure ZSt (σ : Type) where
  eng : σ
  chunks : List (List Byte)
  inBuf : List Byte
  pos : Nat
  written : List Byte

def dzstdInit {σ : Type} (e0 : σ) (cs : List (List Byte)) : ZSt σ :=
  ⟨e0, cs, [], 0, []⟩

/-- The part of one loop iteration of decompress_zstd.c main after the
refill: invoke the engine on the unconsumed slice, check for engine error,
write the produced bytes, and break (exit 0) when the return value is 0. -/
def dzstdBody {σ : Type} (E : ZstdDec σ) (s : ZSt σ) (e1 : List ZEv) :
    (Sum (ZSt σ) (Nat × ZSt σ)) × List ZEv :=
  let r := E.step s.eng (s.inBuf.drop s.pos) CHUNK
  let s2 : ZSt σ := { s with eng := r.st, pos := s.pos + r.consumed }
  let e2 := ZEv.code r.ret r.produced.length s2.pos s2.inBuf.length
  match r.ret with
  | ZRet.err => (Sum.inr (1, s2), e1 ++ [e2])
  | ZRet.hint 0 =>
      (Sum.inr (0, { s2 with written := s2.written ++ r.produced }),
        e1 ++ [e2, ZEv.write r.produced.length])
  | ZRet.hint (_+1) =>
      (Sum.inl { s2 with written := s2.written ++ r.produced },
        e1 ++ [e2, ZEv.write r.produced.length])

/-- One iteration of the decompress_zstd.c main loop: refill the input
buffer when `input.pos >= input.size`; a read of 0 bytes breaks out of the
loop with exit 0; otherwise run the body. -/
def dzstdIter {σ : Type} (E : ZstdDec σ) (s : ZSt σ) :
    (Sum (ZSt σ) (Nat × ZSt σ)) × List ZEv :=
  if s.inBuf.length ≤ s.pos then
    match s.chunks with
    | [] =>
        (Sum.inr (0, { s with inBuf := [] }), [ZEv.read s.pos s.inBuf.length 0])
    | c :: rest =>
        dzstdBody E { s with chunks := rest, inBuf := c, pos := 0 }
          [ZEv.read s.pos s.inBuf.length c.length]
  else
    dzstdBody E s []

/-- Fuel-bounded run of the decompress_zstd.c loop: final exit status and
state when it terminates within the fuel, plus the event trace. -/
def dzstdRun {σ : Type} (E : ZstdDec σ) : Nat → ZSt σ → Option (Nat × ZSt σ) × List ZEv
  | 0, _ => (none, [])
  | fuel+1, s =>
    match dzstdIter E s with
    | (Sum.inr r, evs) => (some r, evs)
    | (Sum.inl s2, evs) => ((dzstdRun E fuel s2).1, evs ++ (dzstdRun E fuel s2).2)

/-- Event marking the engine reporting the end of the first frame. -/
def zIsEndCode : ZEv → Bool
  | ZEv.code (ZRet.hint 0) _ _ _ => true
  | _ => false

/-- The trace suffix strictly after the first frame-end report, if any. -/
def zAfterEnd : List ZEv → Option (List ZEv)
  | [] => none
  | e :: rest => if zIsEndCode e then some rest else zAfterEnd rest

@[simp] theorem zAfterEnd_nil : zAfterEnd [] = none := rfl

@[simp] theorem zAfterEnd_cons (e : ZEv) (rest : List ZEv) :
    zAfterEnd (e :: rest) = if zIsEndCode e then some rest else zAfterEnd rest := rfl

/-- A trace tail consisting of exactly one final write. -/
def zTailOk : List ZEv → Bool
  | [ZEv.write _] => true
  | _ => false

/-- Checks the behavior after a first frame-end report: nothing follows it
but the final write, and the run result is exit status 0. -/
def c10check {σ : Type} (r : Option (Nat × ZSt σ) × List ZEv) : Bool :=
  match zAfterEnd r.2 with
  | none => true
  | some tl =>
      zTailOk tl &&
      (match r.1 with
       | some p => decide (p.1 = 0)
       | none => false)

/- ===================================================================
   gzip decoder driver (decompress_gzip.c).
   =================================================================== -/

/-- Return values of zlib inflate relevant to decompress_gzip.c. -/
inductive ZlRet
  | ok
  | streamEnd
  | needDict
  | bufError
  | streamError
  | dataError
  | memError
deriving DecidableEq, Repr

/-- The inflate return values decompress_gzip.c treats as fatal
(Z_STREAM_ERROR, Z_DATA_ERROR, Z_MEM_ERROR). -/
def ZlRet.isFatal : ZlRet → Bool
  | .streamError => true
  | .dataError => true
  | .memError => true
  | _ => false

/-- Outcome of one inflate call. -/
structure ZlibStepOut (σ : Type) where
  st : σ
  consumed : Nat
  produced : List Byte
  ret : ZlRet

/-- Modelled from the spec: the DEFLATE/gzip decode engine (zlib inflate)
of section 4.3, an opaque stateful transform over the input/output
windows. -/
structure ZlibInf (σ : Type) where
  inflate : σ → List Byte → Nat → ZlibStepOut σ

/-- Observable events of one decompress_gzip.c run. -/
inductive GEv
  | read (got : Nat)
  | code (ret : ZlRet) (producedLen : Nat)
  | write (n : Nat)
deriving DecidableEq, Repr

/-- Outer-loop state of decompress_gzip.c: engine, pending chunks, bytes
written so far (the input buffer is refilled unconditionally at the top of
each outer iteration, so it is not part of the persistent state). -/
structure GSt (σ : Type) where
  eng : σ
  chunks : List (List Byte)
  written : List Byte

/-- The inner do-while loop of decompress_gzip.c: call inflate with a fresh
full output window, stop on a fatal return, write the produced bytes, and
repeat while the output window came back full (`avail_out == 0`).  Returns
the engine state, remaining input slice, last return value, whether a fatal
return was hit, and the bytes written by this inner loop. -/
def dgzInner {σ : Type} (E : ZlibInf σ) :
    Nat → σ → List Byte →
    Option (σ × List Byte × ZlRet × Bool × List Byte) × List GEv
  | 0, _, _ => (none, [])
  | f+1, eng, avail =>
    let r := E.inflate eng avail CHUNK
    let ev := GEv.code r.ret r.produced.length
    if r.ret.isFatal then
      (some (r.st, avail.drop r.consumed, r.ret, true, []), [ev])
    else
      let evw := GEv.write r.produced.length
      if CHUNK - r.produced.length = 0 then
        match dgzInner E f r.st (avail.drop r.consumed) with
        | (some (e2, a2, ret2, fat, prod2), evs2) =>
            (some (e2, a2, ret2, fat, r.produced ++ prod2), ev :: evw :: evs2)
        | (none, evs2) => (none, ev :: evw :: evs2)
      else
        (some (r.st, avail.drop r.consumed, r.ret, false, r.produced), [ev, evw])

/-- Fuel-bounded run of the outer do-while loop of decompress_gzip.c: read
one chunk (a read on the exhausted stream returns 0 bytes), run the inner
loop, exit 1 on a fatal return, exit 0 on stream-end, and otherwise repeat
— with no end-of-file test, so after stream exhaustion the loop keeps
reading 0 bytes for as long as inflate reports neither fatal error nor
stream-end. -/
def dgzipRun {σ : Type} (E : ZlibInf σ) : Nat → GSt σ → Option (Nat × GSt σ) × List GEv
  | 0, _ => (none, [])
  | f+1, s =>
    let c := match s.chunks with
      | [] => ([] : List Byte)
      | c :: _ => c
    let rest := match s.chunks with
      | [] => ([] : List (List Byte))
      | _ :: r => r
    let rev := GEv.read c.length
    match dgzInner E (f+1) s.eng c with
    | (none, evs) => (none, rev :: evs)
    | (some (e2, _, ret2, fatal, prod), evs) =>
      let s2 : GSt σ := { eng := e2, chunks := rest, written := s.written ++ prod }
      if fatal then (some (1, s2), rev :: evs)
      else if ret2 = ZlRet.streamEnd then (some (0, s2), rev :: evs)
      else ((dgzipRun E f s2).1, rev :: evs ++ (dgzipRun E f s2).2)

/-- Modelled from the spec: zlib inflate on input that ends before the
gzip member is complete — it consumes everything offered, produces nothing
further, and reports Z_BUF_ERROR (no progress possible), which is not one
of the returns decompress_gzip.c treats as fatal nor Z_STREAM_END. -/
def zlibStall : ZlibInf Unit :=
  ⟨fun _ avail _ => ⟨(), avail.length, [], ZlRet.bufError⟩⟩

/-- Modelled from the spec: libzstd decoding a frame truncated before its
final byte — every call consumes the offered bytes and returns a nonzero
size hint (frame not complete); stream-end (return 0) is never reported.
The state counts consumed bytes. -/
def zstdNeedMore : ZstdDec Nat :=
  ⟨fun s inp _ => ⟨s + inp.length, inp.length, [], ZRet.hint 3⟩⟩

/-- Every engine invocation that is not fatal is immediately followed by a
write of exactly the bytes it produced. -/
def gzPaired : List GEv → Bool
  | [] => true
  | GEv.read _ :: rest => gzPaired rest
  | GEv.write _ :: rest => gzPaired rest
  | GEv.code ret n :: rest =>
      if ret.isFatal then gzPaired rest
      else
        match rest with
        | GEv.write m :: r2 => decide (m = n) && gzPaired r2
        | _ => false

/- ===================================================================
   LZMA/xz engine interface (liblzma lzma_code), shared by
   decompress_xz.c and temsxz.c.
   =================================================================== -/

/-- Action passed to lzma_code: LZMA_RUN or LZMA_FINISH. -/
inductive LzAction
  | run
  | finish
deriving DecidableEq, Repr

/-- lzma_code return values as the drivers distinguish them: LZMA_OK,
LZMA_STREAM_END, and any other (error) value. -/
inductive LzRet
  | ok
  | streamEnd
  | err
deriving DecidableEq, Repr

/-- Outcome of one lzma_code call. -/
structure LzStepOut (σ : Type) where
  st : σ
  consumed : Nat
  produced : List Byte
  ret : LzRet

/-- Modelled from the spec: the LZMA/xz engine (lzma_code) of section 4.3,
an opaque stateful transform taking the requested action, the unconsumed
input slice, and the free space of the output buffer. -/
structure LzCodec (σ : Type) where
  code : σ → LzAction → List Byte → Nat → LzStepOut σ

/-- Engine well-formedness from the backend capability contract. -/
def LzWF {σ : Type} (E : LzCodec σ) : Prop :=
  ∀ s a inp cap, (E.code s a inp cap).consumed ≤ inp.length ∧
    (E.code s a inp cap).produced.length ≤ cap

/- ===================================================================
   xz decoder driver (decompress_xz.c).
   =================================================================== -/

/-- Observable events of one decompress_xz.c run; reads record the
unconsumed length and fill level right before them, engine invocations
record the action used and the cursors right after. -/
inductive XEv
  | read (availBefore fillBefore got : Nat)
  | code (act : LzAction) (ret : LzRet) (producedLen availAfter fillAfter : Nat)
  | write (n : Nat)
deriving DecidableEq, Repr

/-- Driver state of decompress_xz.c: engine, pending chunks, unconsumed
input slice (`avail_in`), bytes filled at the last read (`read_pos` is
`fillLen - availIn.length`), requested action, bytes written. -/
structure XSt (σ : Type) where
  eng : σ
  chunks : List (List Byte)
  availIn : List Byte
  fillLen : Nat
  act : LzAction
  written : List Byte

def dxzInit {σ : Type} (e0 : σ) (cs : List (List Byte)) : XSt σ :=
  ⟨e0, cs, [], 0, LzAction.run, []⟩

/-- The engine/write part of one decompress_xz.c iteration: run lzma_code
with a fresh output buffer, exit 1 on an error return, write the produced
bytes, and break with exit 0 on LZMA_STREAM_END. -/
def dxzBody {σ : Type} (E : LzCodec σ) (s : XSt σ) (e1 : List XEv) :
    (Sum (XSt σ) (Nat × XSt σ)) × List XEv :=
  let r := E.code s.eng s.act s.availIn CHUNK
  let s2 : XSt σ := { s with eng := r.st, availIn := s.availIn.drop r.consumed }
  let e2 := XEv.code s.act r.ret r.produced.length s2.availIn.length s2.fillLen
  match r.ret with
  | LzRet.err => (Sum.inr (1, s2), e1 ++ [e2])
  | LzRet.streamEnd =>
      (Sum.inr (0, { s2 with written := s2.written ++ r.produced }),
        e1 ++ [e2, XEv.write r.produced.length])
  | LzRet.ok =>
      (Sum.inl { s2 with written := s2.written ++ r.produced },
        e1 ++ [e2, XEv.write r.produced.length])

/-- One iteration of the decompress_xz.c main loop: refill when
`avail_in == 0` (a read of 0 bytes selects LZMA_FINISH), then the body. -/
def dxzIter {σ : Type} (E : LzCodec σ) (s : XSt σ) :
    (Sum (XSt σ) (Nat × XSt σ)) × List XEv :=
  if s.availIn.length = 0 then
    match s.chunks with
    | [] =>
        dxzBody E { s with availIn := [], fillLen := 0, act := LzAction.finish }
          [XEv.read s.availIn.length s.fillLen 0]
    | c :: rest =>
        dxzBody E
          { s with
            chunks := rest, availIn := c, fillLen := c.length,
            act := if c.length = 0 then LzAction.finish else s.act }
          [XEv.read s.availIn.length s.fillLen c.length]
  else dxzBody E s []

/-- Fuel-bounded run of the decompress_xz.c loop. -/
def dxzRun {σ : Type} (E : LzCodec σ) : Nat → XSt σ → Option (Nat × XSt σ) × List XEv
  | 0, _ => (none, [])
  | fuel+1, s =>
    match dxzIter E s with
    | (Sum.inr r, evs) => (some r, evs)
    | (Sum.inl s2, evs) => ((dxzRun E fuel s2).1, evs ++ (dxzRun E fuel s2).2)

/- ===================================================================
   Full-featured xz driver stream loop (temsxz.c main loop).
   =================================================================== -/

/-- Observable events of one temsxz.c stream-loop run.  Engine invocations
record the pending (unflushed) output length right after the call; writes
record the requested byte count and whether the write was complete. -/
inductive TEv
  | read (availBefore fillBefore got : Nat)
  | code (act : LzAction) (ret : LzRet) (producedLen availAfter pendingAfter : Nat)
  | write (requested : Nat) (ok : Bool)
deriving DecidableEq, Repr

/-- Driver state of the temsxz.c stream loop: engine, pending chunks,
end-of-file flag, unconsumed input slice, fill level of the last read,
unflushed output-buffer content (`avail_out` is `CHUNK - pending.length`),
requested action, bytes written to standard output, a ghost field
accumulating every byte the engine ever produced, and the output fault
model (`outCap`: number of further bytes standard output accepts before
failing; `none` means writes always succeed). -/
structure TSt (σ : Type) where
  eng : σ
  chunks : List (List Byte)
  eof : Bool
  availIn : List Byte
  fillLen : Nat
  pending : List Byte
  act : LzAction
  written : List Byte
  producedAll : List Byte
  outCap : Option Nat

def temsxzInit {σ : Type} (e0 : σ) (cs : List (List Byte)) (cap : Option Nat) : TSt σ :=
  ⟨e0, cs, false, [], 0, [], LzAction.run, [], [], cap⟩

/-- The read step of the temsxz.c loop: refill when `avail_in == 0` and the
end-of-file flag is not set; after the read, if end-of-file is reached the
action becomes LZMA_FINISH. -/
def temsxzRead {σ : Type} (s : TSt σ) : TSt σ × List TEv :=
  if s.availIn.length = 0 ∧ s.eof = false then
    match s.chunks with
    | [] =>
        ({ s with
            availIn := [], fillLen := 0, eof := true,
            act := LzAction.finish },
         [TEv.read s.availIn.length s.fillLen 0])
    | c :: rest =>
        ({ s with
            chunks := rest, availIn := c, fillLen := c.length,
            eof := rest.isEmpty,
            act := if rest.isEmpty then LzAction.finish else s.act },
         [TEv.read s.availIn.length s.fillLen c.length])
  else (s, [])

/-- The end-of-iteration status check of the temsxz.c loop: continue on
LZMA_OK, break with exit 0 on LZMA_STREAM_END, exit 1 otherwise. -/
def temsxzEnd {σ : Type} (ret : LzRet) (s : TSt σ) (evs : List TEv) :
    (Sum (TSt σ) (Nat × TSt σ)) × List TEv :=
  match ret with
  | LzRet.ok => (Sum.inl s, evs)
  | LzRet.streamEnd => (Sum.inr (0, s), evs)
  | LzRet.err => (Sum.inr (1, s), evs)

/-- The engine/write step of the temsxz.c loop: one lzma_code call whose
output is appended to the output buffer; the buffer is flushed only when
`avail_out == 0` or the return value is not LZMA_OK (`write_size =
CHUNK - avail_out`); an incomplete fwrite exits 1; then the status check. -/
def temsxzBody {σ : Type} (E : LzCodec σ) (s : TSt σ) :
    (Sum (TSt σ) (Nat × TSt σ)) × List TEv :=
  let r := E.code s.eng s.act s.availIn (CHUNK - s.pending.length)
  let s2 : TSt σ := { s with
                      eng := r.st, availIn := s.availIn.drop r.consumed,
                      pending := s.pending ++ r.produced,
                      producedAll := s.producedAll ++ r.produced }
  let e2 := TEv.code s.act r.ret r.produced.length s2.availIn.length s2.pending.length
  if CHUNK - s2.pending.length = 0 ∨ r.ret ≠ LzRet.ok then
    if 0 < s2.pending.length then
      match s2.outCap with
      | some k =>
          if k < s2.pending.length then
            (Sum.inr (1, { s2 with
                           written := s2.written ++ s2.pending.take k,
                           outCap := some 0 }),
              [e2, TEv.write s2.pending.length false])
          else
            temsxzEnd r.ret
              { s2 with
                written := s2.written ++ s2.pending, pending := [],
                outCap := some (k - s2.pending.length) }
              [e2, TEv.write s2.pending.length true]
      | none =>
          temsxzEnd r.ret
            { s2 with written := s2.written ++ s2.pending, pending := [] }
            [e2, TEv.write s2.pending.length true]
    else
      temsxzEnd r.ret s2 [e2]
  else
    temsxzEnd r.ret s2 [e2]

/-- One iteration of the temsxz.c stream loop. -/
def temsxzIter {σ : Type} (E : LzCodec σ) (s : TSt σ) :
    (Sum (TSt σ) (Nat × TSt σ)) × List TEv :=
  ((temsxzBody E (temsxzRead s).1).1,
    (temsxzRead s).2 ++ (temsxzBody E (temsxzRead s).1).2)

/-- Fuel-bounded run of the temsxz.c stream loop. -/
def temsxzRun {σ : Type} (E : LzCodec σ) : Nat → TSt σ → Option (Nat × TSt σ) × List TEv
  | 0, _ => (none, [])
  | fuel+1, s =>
    match temsxzIter E s with
    | (Sum.inr r, evs) => (some r, evs)
    | (Sum.inl s2, evs) => ((temsxzRun E fuel s2).1, evs ++ (temsxzRun E fuel s2).2)

/- ===================================================================
   Embedded xz decoder driver (embedded/temsxz.c, xz-embedded backend).
   =================================================================== -/

/-- xz_dec_run return values as the embedded driver distinguishes them. -/
inductive XzRet
  | ok
  | streamEnd
  | err
deriving DecidableEq, Repr

/-- Outcome of one xz_dec_run call. -/
structure XzEmbStepOut (σ : Type) where
  st : σ
  consumed : Nat
  produced : List Byte
  ret : XzRet

/-- Modelled from the spec: the allocation-constrained embedded xz decode
engine (xz_dec_run) of section 4.3. -/
structure XzEmbDec (σ : Type) where
  step : σ → List Byte → Nat → XzEmbStepOut σ

/-- Engine well-formedness from the backend capability contract. -/
def XzEmbWF {σ : Type} (E : XzEmbDec σ) : Prop :=
  ∀ s inp cap, (E.step s inp cap).consumed ≤ inp.length ∧
    (E.step s inp cap).produced.length ≤ cap

/-- Observable events of one embedded-driver run. -/
inductive EEv
  | read (posBefore sizeBefore got : Nat)
  | code (ret : XzRet) (producedLen posAfter sizeAfter : Nat)
  | write (n : Nat)
deriving DecidableEq, Repr

/-- Driver state of embedded/temsxz.c: engine, pending chunks, end-of-file
flag, input buffer content (`in_size` is `inBuf.length`) and its
consumption cursor `in_pos`, bytes written. -/
structure ESt (σ : Type) where
  eng : σ
  chunks : List (List Byte)
  eof : Bool
  inBuf : List Byte
  inPos : Nat
  written : List Byte

def dembInit {σ : Type} (e0 : σ) (cs : List (List Byte)) : ESt σ :=
  ⟨e0, cs, false, [], 0, []⟩

/-- The engine/write part of one embedded-driver iteration: run
xz_dec_run; write the produced bytes if any; break with exit 0 on
XZ_STREAM_END; exit 1 on any other non-XZ_OK return; otherwise continue
while `in_size > 0 || !feof`. -/
def dembBody {σ : Type} (E : XzEmbDec σ) (s : ESt σ) (e1 : List EEv) :
    (Sum (ESt σ) (Nat × ESt σ)) × List EEv :=
  let r := E.step s.eng (s.inBuf.drop s.inPos) CHUNK
  let s2 : ESt σ := { s with eng := r.st, inPos := s.inPos + r.consumed }
  let e2 := EEv.code r.ret r.produced.length s2.inPos s2.inBuf.length
  let wr :=
    if 0 < r.produced.length then
      ({ s2 with written := s2.written ++ r.produced }, [EEv.write r.produced.length])
    else (s2, ([] : List EEv))
  let s3 := wr.1
  let e3 := wr.2
  match r.ret with
  | XzRet.streamEnd => (Sum.inr (0, s3), e1 ++ e2 :: e3)
  | XzRet.err => (Sum.inr (1, s3), e1 ++ e2 :: e3)
  | XzRet.ok =>
      if 0 < s3.inBuf.length ∨ s3.eof = false then (Sum.inl s3, e1 ++ e2 :: e3)
      else (Sum.inr (0, s3), e1 ++ e2 :: e3)

/-- One iteration of the embedded do-while loop: refill when
`in_pos == in_size` and not end-of-file, then the body. -/
def dembIter {σ : Type} (E : XzEmbDec σ) (s : ESt σ) :
    (Sum (ESt σ) (Nat × ESt σ)) × List EEv :=
  if s.inPos = s.inBuf.length ∧ s.eof = false then
    match s.chunks with
    | [] =>
        dembBody E { s with inBuf := [], inPos := 0, eof := true }
          [EEv.read s.inPos s.inBuf.length 0]
    | c :: rest =>
        dembBody E { s with chunks := rest, inBuf := c, inPos := 0, eof := rest.isEmpty }
          [EEv.read s.inPos s.inBuf.length c.length]
  else dembBody E s []

/-- Fuel-bounded run of the embedded do-while loop. -/
def dembRun {σ : Type} (E : XzEmbDec σ) : Nat → ESt σ → Option (Nat × ESt σ) × List EEv
  | 0, _ => (none, [])
  | fuel+1, s =>
    match dembIter E s with
    | (Sum.inr r, evs) => (some r, evs)
    | (Sum.inl s2, evs) => ((dembRun E fuel s2).1, evs ++ (dembRun E fuel s2).2)

/- ===================================================================
   Buffer-cursor invariants (reads only at full consumption;
   0 ≤ read_pos ≤ fill_len ≤ CHUNK at every observation point).
   =================================================================== -/

/-- Cursor soundness of a decompress_zstd.c event: reads happen only when
the buffer is fully consumed, and the recorded cursors always satisfy
`pos ≤ size ≤ CHUNK`. -/
def zCursorOk : ZEv → Bool
  | ZEv.read posB sizeB _ => decide (posB = sizeB) && decide (sizeB ≤ CHUNK)
  | ZEv.code _ _ posA sizeA => decide (posA ≤ sizeA) && decide (sizeA ≤ CHUNK)
  | ZEv.write _ => true

/-- Cursor soundness of a decompress_xz.c event (`read_pos` is
`fillLen - availIn.length`, so full consumption is `availIn.length = 0`). -/
def xCursorOk : XEv → Bool
  | XEv.read availB fillB _ => decide (availB = 0) && decide (fillB ≤ CHUNK)
  | XEv.code _ _ _ availA fillA => decide (availA ≤ fillA) && decide (fillA ≤ CHUNK)
  | XEv.write _ => true

/-- Cursor soundness of an embedded-driver event. -/
def eCursorOk : EEv → Bool
  | EEv.read posB sizeB _ => decide (posB = sizeB) && decide (sizeB ≤ CHUNK)
  | EEv.code _ _ posA sizeA => decide (posA ≤ sizeA) && decide (sizeA ≤ CHUNK)
  | EEv.write _ => true

/-- State invariant of the decompress_zstd.c driver. -/
def ZInv {σ : Type} (s : ZSt σ) : Prop :=
  s.pos ≤ s.inBuf.length ∧ s.inBuf.length ≤ CHUNK ∧
    ∀ c ∈ s.chunks, c.length ≤ CHUNK

/-- State invariant of the decompress_xz.c driver. -/
def XInv {σ : Type} (s : XSt σ) : Prop :=
  s.availIn.length ≤ s.fillLen ∧ s.fillLen ≤ CHUNK ∧
    ∀ c ∈ s.chunks, c.length ≤ CHUNK

/-- State invariant of the embedded driver. -/
def EInv {σ : Type} (s : ESt σ) : Prop :=
  s.inPos ≤ s.inBuf.length ∧ s.inBuf.length ≤ CHUNK ∧
    ∀ c ∈ s.chunks, c.length ≤ CHUNK

/- ===================================================================
   Finish-action absorption (claim about LZMA_FINISH selection).
   =================================================================== -/

/-- All engine invocations in the trace use the finish action. -/
def xzFinishFrom : List XEv → Bool
  | [] => true
  | XEv.read _ _ _ :: rest => xzFinishFrom rest
  | XEv.write _ :: rest => xzFinishFrom rest
  | XEv.code a _ _ _ _ :: rest => decide (a = LzAction.finish) && xzFinishFrom rest

/-- After every read that returned 0 bytes, every engine invocation uses
the finish action. -/
def xzEofFinish : List XEv → Bool
  | [] => true
  | XEv.read _ _ 0 :: rest => xzFinishFrom rest
  | XEv.read _ _ (_+1) :: rest => xzEofFinish rest
  | XEv.write _ :: rest => xzEofFinish rest
  | XEv.code _ _ _ _ _ :: rest => xzEofFinish rest

/-- All engine invocations in the trace use the finish action. -/
def tFinishFrom : List TEv → Bool
  | [] => true
  | TEv.read _ _ _ :: rest => tFinishFrom rest
  | TEv.write _ _ :: rest => tFinishFrom rest
  | TEv.code a _ _ _ _ :: rest => decide (a = LzAction.finish) && tFinishFrom rest

/-- After every read that returned 0 bytes, every engine invocation uses
the finish action. -/
def tEofFinish : List TEv → Bool
  | [] => true
  | TEv.read _ _ 0 :: rest => tFinishFrom rest
  | TEv.read _ _ (_+1) :: rest => tEofFinish rest
  | TEv.write _ _ :: rest => tEofFinish rest
  | TEv.code _ _ _ _ _ :: rest => tEofFinish rest

/-- A trivial conforming LZMA engine for concrete runs: consumes all input,
produces nothing, always reports LZMA_OK. -/
def lzEcho : LzCodec Unit :=
  ⟨fun _ _ inp _ => ⟨(), inp.length, [], LzRet.ok⟩⟩

/-- A trivial conforming zstd engine for concrete runs: consumes all input,
produces nothing, reports frame end immediately. -/
def zstdEcho : ZstdDec Unit :=
  ⟨fun _ inp _ => ⟨(), inp.length, [], ZRet.hint 0⟩⟩

/-- A trivial conforming embedded-xz engine for concrete runs. -/
def xzeEcho : XzEmbDec Unit :=
  ⟨fun _ inp _ => ⟨(), inp.length, [], XzRet.streamEnd⟩⟩

/- ===================================================================
   Output-flushing discipline of the temsxz.c loop.
   =================================================================== -/

/-- The property claimed in the spec, per trace: every engine invocation
that produced bytes is immediately followed by a write (the produced bytes
are flushed before the driver continues). -/
def tDrainedEachCall : List TEv → Bool
  | [] => true
  | TEv.read _ _ _ :: rest => tDrainedEachCall rest
  | TEv.write _ _ :: rest => tDrainedEachCall rest
  | TEv.code _ _ pl _ _ :: rest =>
      if 0 < pl then
        match rest with
        | TEv.write _ _ :: r2 => tDrainedEachCall r2
        | [] => true
        | _ => false
      else tDrainedEachCall rest

/-- A contract-conforming LZMA engine that produces one byte per call with
status LZMA_OK: consumes all input, emits one byte when there is room. -/
def lzEager : LzCodec Unit :=
  ⟨fun _ _ inp cap => ⟨(), inp.length, if cap = 0 then [] else [65], LzRet.ok⟩⟩

/-- The actual flush discipline of temsxz.c, per trace: an engine
invocation is immediately followed by a write of the whole buffered
content exactly when the output buffer came back full (`avail_out == 0`)
or the return value is not LZMA_OK (and there is something to write);
after any other invocation no write happens. -/
def tFlushOk : List TEv → Bool
  | [] => true
  | TEv.read _ _ _ :: rest => tFlushOk rest
  | TEv.write _ _ :: rest => tFlushOk rest
  | TEv.code _ r _ _ pa :: rest =>
      if (CHUNK - pa = 0 ∨ r ≠ LzRet.ok) ∧ 0 < pa then
        match rest with
        | TEv.write n _ :: r2 => decide (n = pa) && tFlushOk r2
        | [] => true
        | _ => false
      else
        match rest with
        | TEv.write _ _ :: _ => false
        | _ => tFlushOk rest

/-- No incomplete write occurs in the trace. -/
def tNoShort : List TEv → Bool
  | [] => true
  | TEv.read _ _ _ :: rest => tNoShort rest
  | TEv.code _ _ _ _ _ :: rest => tNoShort rest
  | TEv.write _ true :: rest => tNoShort rest
  | TEv.write _ false :: _ => false

/-- The trace does not begin with a write event. -/
def tHnw : List TEv → Bool
  | [] => true
  | TEv.read _ _ _ :: _ => true
  | TEv.code _ _ _ _ _ :: _ => true
  | TEv.write _ _ :: _ => false

/-- An incomplete write, if any, makes the run terminate with exit 1. -/
def tShortOk {σ : Type} (r : Option (Nat × TSt σ) × List TEv) : Bool :=
  tNoShort r.2 ||
    (match r.1 with
     | some p => decide (p.1 = 1)
     | none => false)

/-- On a successful exit the output buffer is empty and everything the
engine ever produced has been written. -/
def tExitDrained {σ : Type} (r : Option (Nat × TSt σ) × List TEv) : Bool :=
  match r.1 with
  | some (0, sf) => sf.pending.isEmpty && decide (sf.written = sf.producedAll)
  | _ => true

/- ===================================================================
   Canonical deterministic engine realizing a pure stream transform,
   and the temsxz.c pump correctness against it.
   =================================================================== -/

/-- State of the canonical engine: bytes consumed so far and number of
output bytes already emitted. -/
structure CanonSt where
  consumed : List Byte
  emitted : Nat
deriving DecidableEq, Repr

/-- Modelled from the spec: a deterministic codec engine realizing the
pure stream transform `T` under the backend capability contract of
section 4.3 — it consumes all offered input, keeps all algorithm state
internally, and once the finish action is requested emits the transform
of the complete input in output-window-sized pieces, reporting
LZMA_STREAM_END exactly when the last byte has been emitted. -/
def canonEngine (T : List Byte → List Byte) : LzCodec CanonSt :=
  ⟨fun st act inp outCap =>
    match act with
    | LzAction.run => ⟨⟨st.consumed ++ inp, st.emitted⟩, inp.length, [], LzRet.ok⟩
    | LzAction.finish =>
        ⟨⟨st.consumed ++ inp,
          st.emitted + (((T (st.consumed ++ inp)).drop st.emitted).take outCap).length⟩,
         inp.length,
         ((T (st.consumed ++ inp)).drop st.emitted).take outCap,
         if st.emitted + (((T (st.consumed ++ inp)).drop st.emitted).take outCap).length
             = (T (st.consumed ++ inp)).length
         then LzRet.streamEnd else LzRet.ok⟩⟩

/-- The temsxz.c loop, started in state `s`, terminates with exit 0 and
total standard-output content `out` once given enough fuel. -/
def TReaches {σ : Type} (E : LzCodec σ) (s : TSt σ) (out : List Byte) : Prop :=
  ∃ f, ∀ g, f ≤ g →
    ((temsxzRun E g s).1.map (fun r => (r.1, r.2.written))) = some (0, out)

/-- Drain-phase state of the pump against the canonical engine: all input
chunks delivered, end-of-file reached, finish action selected, `e` bytes
of the transform already emitted and written. -/
def dStateT (T : List Byte → List Byte) (K inp : List Byte) (e fl : Nat) :
    TSt CanonSt :=
  { eng := ⟨K, e⟩, chunks := [], eof := true, availIn := inp, fillLen := fl,
    pending := [], act := LzAction.finish, written := (T (K ++ inp)).take e,
    producedAll := (T (K ++ inp)).take e, outCap := none }

/-- Read-phase state of the pump against the canonical engine: `K` bytes
consumed so far, chunks `cs` still to come, nothing emitted. -/
def rStateT (K : List Byte) (cs : List (List Byte)) (fl : Nat) : TSt CanonSt :=
  { eng := ⟨K, 0⟩, chunks := cs, eof := false, availIn := [], fillLen := fl,
    pending := [], act := LzAction.run, written := [], producedAll := [],
    outCap := none }

/-- The decompress_xz.c loop, started in state `s`, terminates with exit 0
and total standard-output content `out` once given enough fuel. -/
def XReaches {σ : Type} (E : LzCodec σ) (s : XSt σ) (out : List Byte) : Prop :=
  ∃ f, ∀ g, f ≤ g →
    ((dxzRun E g s).1.map (fun r => (r.1, r.2.written))) = some (0, out)

/-- Drain-phase state of the decompress_xz.c pump against the canonical
engine: all input consumed by the engine, `e` bytes of the transform
already emitted and written (each iteration re-reads 0 bytes and selects
the finish action, so the incoming action `a` is irrelevant). -/
def dStateX (T : List Byte → List Byte) (K : List Byte) (e fl : Nat)
    (a : LzAction) : XSt CanonSt :=
  ⟨⟨K, e⟩, [], [], fl, a, (T K).take e⟩

/-- Read-phase state of the decompress_xz.c pump against the canonical
engine: `K` bytes consumed so far, chunks `cs` still to come. -/
def rStateX (K : List Byte) (cs : List (List Byte)) (fl : Nat) : XSt CanonSt :=
  ⟨⟨K, 0⟩, cs, [], fl, LzAction.run, []⟩

/- ===================================================================
   Theorems.
   =================================================================== -/

theorem parseLoop_levelInRange (args : List (List Nat)) :
    ∀ c l e, 0 ≤ l → l ≤ 9 → (parseLoop args c l e).levelInRange = true := by
  induction args with
  | nil =>
      intro c l e h0 h9
      simp [parseLoop, ParseResult.levelInRange, h0, h9]
  | cons a rest ih =>
      intro c l e h0 h9
      unfold parseLoop
      by_cases h1 : a = strHelp ∨ a = strHelpLong
      · rw [if_pos h1]; rfl
      · rw [if_neg h1]
        by_cases h2 : a = strVersion ∨ a = strVersionLong
        · rw [if_pos h2]; rfl
        · rw [if_neg h2]
          by_cases h3 : a = strCompress
          · rw [if_pos h3]
            exact ih 1 l e h0 h9
          · rw [if_neg h3]
            by_cases h4 : a = strDecompress
            · rw [if_pos h4]
              exact ih 0 l e h0 h9
            · rw [if_neg h4]
              by_cases h5 : cAt a 0 = 45 ∧ 48 ≤ cAt a 1 ∧ cAt a 1 ≤ 57 ∧ cAt a 2 = 0
              · rw [if_pos h5]
                have hlv0 : (0 : Int) ≤ (cAt a 1 : Int) - 48 := by
                  have := h5.2.1
                  omega
                have hlv9 : (cAt a 1 : Int) - 48 ≤ 9 := by
                  have := h5.2.2.1
                  omega
                have hrange : ¬((cAt a 1 : Int) - 48 < 0 ∨ (cAt a 1 : Int) - 48 > 9) := by
                  omega
                rw [if_neg hrange]
                exact ih c _ e hlv0 hlv9
              · rw [if_neg h5]
                by_cases h6 : a = strExtreme
                · rw [if_pos h6]
                  exact ih c l true h0 h9
                · rw [if_neg h6]; rfl

theorem parseLoop_noRangeErr (args : List (List Nat)) :
    ∀ c l e, (parseLoop args c l e).isRangeErr = false := by
  induction args with
  | nil =>
      intro c l e
      simp [parseLoop, ParseResult.isRangeErr]
  | cons a rest ih =>
      intro c l e
      unfold parseLoop
      by_cases h1 : a = strHelp ∨ a = strHelpLong
      · rw [if_pos h1]; rfl
      · rw [if_neg h1]
        by_cases h2 : a = strVersion ∨ a = strVersionLong
        · rw [if_pos h2]; rfl
        · rw [if_neg h2]
          by_cases h3 : a = strCompress
          · rw [if_pos h3]
            exact ih 1 l e
          · rw [if_neg h3]
            by_cases h4 : a = strDecompress
            · rw [if_pos h4]
              exact ih 0 l e
            · rw [if_neg h4]
              by_cases h5 : cAt a 0 = 45 ∧ 48 ≤ cAt a 1 ∧ cAt a 1 ≤ 57 ∧ cAt a 2 = 0
              · rw [if_pos h5]
                have hrange : ¬((cAt a 1 : Int) - 48 < 0 ∨ (cAt a 1 : Int) - 48 > 9) := by
                  have := h5.2.1
                  have := h5.2.2.1
                  omega
                rw [if_neg hrange]
                exact ih c _ e
              · rw [if_neg h5]
                by_cases h6 : a = strExtreme
                · rw [if_pos h6]
                  exact ih c l true
                · rw [if_neg h6]; rfl

theorem parseLoop_unknown (a : List Nat) (rest : List (List Nat))
    (c l : Int) (e : Bool) (h : recognizedB a = false) :
    parseLoop (a :: rest) c l e = .exit .unknownOpt := by
  unfold recognizedB at h
  simp only [Bool.decide_or, Bool.or_eq_false_iff, decide_eq_false_iff_not] at h
  obtain ⟨hh, hhl, hv, hvl, hc, hd, hdig, he⟩ := h
  unfold parseLoop
  simp [hh, hhl, hv, hvl, hc, hd, hdig, he]

/-- C8: invoking the full-featured CLI with -9 -e -c yields level 9,
extreme on, compress direction; with -5 -3 the last level wins (3) and the
direction defaults to decompress; an unrecognized argument exits 1 after
printing a diagnostic to the error stream; with no arguments the direction
defaults to decompress at level 6. -/
theorem temsxz_cli_scenarios :
    parseArgs [[45, 57], [45, 101], [45, 99]] = .run 1 9 true ∧
    parseArgs [[45, 53], [45, 51]] = .run 0 3 false ∧
    (∀ (a : List Nat) (rest : List (List Nat)) (c l : Int) (e : Bool),
      recognizedB a = false →
      parseLoop (a :: rest) c l e = .exit .unknownOpt) ∧
    ParseExit.toCode .unknownOpt = 1 ∧
    0 < ParseExit.stderrLines .unknownOpt ∧
    parseArgs [] = .run 0 6 false := by
  refine ⟨by decide, by decide, ?_, by decide, by decide, by decide⟩
  intro a rest c l e h
  exact parseLoop_unknown a rest c l e h

theorem temsxz_cli_scenarios_witness :
    recognizedB [45, 120] = false ∧
    parseLoop [[45, 120]] (-1) 6 false = .exit .unknownOpt :=
  ⟨by decide, temsxz_cli_scenarios.2.2.1 [45, 120] [] (-1) 6 false (by decide)⟩

/-- C9: a level-setting argument must have the exact shape '-' digit NUL, so
the parsed level always lies in [0, 9] and the `level < 0 || level > 9`
error branch of temsxz.c is unreachable for every argument vector. -/
theorem temsxz_level_range_unreachable :
    (∀ args : List (List Nat), (parseArgs args).levelInRange = true) ∧
    (∀ (args : List (List Nat)) (c l : Int) (e : Bool),
      (parseLoop args c l e).isRangeErr = false) := by
  constructor
  · intro args
    exact parseLoop_levelInRange args (-1) 6 false (by decide) (by decide)
  · intro args c l e
    exact parseLoop_noRangeErr args c l e

theorem zAfterEnd_append_of_none (evs1 evs2 : List ZEv)
    (h : zAfterEnd evs1 = none) :
    zAfterEnd (evs1 ++ evs2) = zAfterEnd evs2 := by
  induction evs1 with
  | nil => simp
  | cons e rest ih =>
      rw [zAfterEnd_cons] at h
      by_cases he : zIsEndCode e = true
      · rw [if_pos he] at h
        exact absurd h (by simp)
      · rw [if_neg he] at h
        rw [List.cons_append, zAfterEnd_cons, if_neg he]
        exact ih h

theorem c10check_extend {σ : Type} (res : Option (Nat × ZSt σ))
    (evs tr : List ZEv) (h : zAfterEnd evs = none) :
    c10check (res, evs ++ tr) = c10check (res, tr) := by
  unfold c10check
  rw [zAfterEnd_append_of_none evs tr h]

theorem dzstdBody_c10 {σ : Type} (E : ZstdDec σ) (f : Nat)
    (ih : ∀ s2 : ZSt σ, c10check (dzstdRun E f s2) = true)
    (s : ZSt σ) (e1 : List ZEv) (h1 : zAfterEnd e1 = none) :
    c10check (match dzstdBody E s e1 with
      | (Sum.inr r, evs) => (some r, evs)
      | (Sum.inl s2, evs) =>
          ((dzstdRun E f s2).1, evs ++ (dzstdRun E f s2).2)) = true := by
  unfold dzstdBody
  rcases hstep : E.step s.eng (s.inBuf.drop s.pos) CHUNK with ⟨st2, cons, prod, ret⟩
  cases ret with
  | err =>
      simp only [hstep]
      rw [c10check]
      rw [zAfterEnd_append_of_none _ _ h1]
      simp [zIsEndCode]
  | hint h =>
      cases h with
      | zero =>
          simp only [hstep]
          rw [c10check]
          rw [zAfterEnd_append_of_none _ _ h1]
          simp [zIsEndCode, zTailOk]
      | succ m =>
          simp only [hstep]
          rw [c10check_extend]
          · exact ih _
          · rw [zAfterEnd_append_of_none _ _ h1]
            simp [zIsEndCode]

theorem dzstd_c10_aux {σ : Type} (E : ZstdDec σ) :
    ∀ fuel (s : ZSt σ), c10check (dzstdRun E fuel s) = true := by
  intro fuel
  induction fuel with
  | zero => intro s; rfl
  | succ f ih =>
      intro s
      show c10check (dzstdRun E (f + 1) s) = true
      have hrun : dzstdRun E (f + 1) s =
          (match dzstdIter E s with
           | (Sum.inr r, evs) => (some r, evs)
           | (Sum.inl s2, evs) =>
               ((dzstdRun E f s2).1, evs ++ (dzstdRun E f s2).2)) := rfl
      rw [hrun]
      unfold dzstdIter
      by_cases hrd : s.inBuf.length ≤ s.pos
      · rw [if_pos hrd]
        cases hc : s.chunks with
        | nil => simp [c10check, zIsEndCode]
        | cons c rest => exact dzstdBody_c10 E f ih _ _ (by simp [zIsEndCode])
      · rw [if_neg hrd]
        exact dzstdBody_c10 E f ih _ _ rfl

theorem dgzip_stalls_forever : ∀ (fuel : Nat) (cs : List (List Byte))
    (w : List Byte), (dgzipRun zlibStall fuel ⟨(), cs, w⟩).1 = none := by
  intro fuel
  induction fuel with
  | zero => intro cs w; rfl
  | succ f ih =>
      intro cs w
      cases cs with
      | nil =>
          show (dgzipRun zlibStall (f + 1) ⟨(), [], w⟩).1 = none
          have h1 : dgzInner zlibStall (f + 1) () ([] : List Byte) =
              (some ((), [], ZlRet.bufError, false, []),
                [GEv.code ZlRet.bufError 0, GEv.write 0]) := by
            simp [dgzInner, zlibStall, ZlRet.isFatal, CHUNK]
          simp only [dgzipRun, h1]
          simp [ih [] w]
      | cons c rest =>
          show (dgzipRun zlibStall (f + 1) ⟨(), c :: rest, w⟩).1 = none
          have h1 : dgzInner zlibStall (f + 1) () c =
              (some ((), [], ZlRet.bufError, false, []),
                [GEv.code ZlRet.bufError 0, GEv.write 0]) := by
            simp [dgzInner, zlibStall, ZlRet.isFatal, CHUNK]
          simp only [dgzipRun, h1]
          simp [ih rest w]

theorem gzPaired_append : ∀ a b : List GEv,
    gzPaired a = true → gzPaired b = true → gzPaired (a ++ b) = true := by
  intro a
  induction a with
  | nil =>
      intro b _ hb
      simpa using hb
  | cons e rest ih =>
      intro b ha hb
      cases e with
      | read g =>
          rw [List.cons_append]
          rw [gzPaired] at ha ⊢
          exact ih b ha hb
      | write m =>
          rw [List.cons_append]
          rw [gzPaired] at ha ⊢
          exact ih b ha hb
      | code ret n =>
          by_cases hfat : ret.isFatal = true
          · have hred : ∀ l, gzPaired (GEv.code ret n :: l) = gzPaired l := by
              intro l
              cases l with
              | nil => simp [gzPaired, hfat]
              | cons e2 r2 => cases e2 <;> simp [gzPaired, hfat]
            rw [hred] at ha
            rw [List.cons_append, hred]
            exact ih b ha hb
          · rw [Bool.not_eq_true] at hfat
            cases rest with
            | nil => simp [gzPaired, hfat] at ha
            | cons e2 r2 =>
                cases e2 with
                | read g2 => simp [gzPaired, hfat] at ha
                | code rr pp => simp [gzPaired, hfat] at ha
                | write m =>
                    have ha2 : m = n ∧ gzPaired r2 = true := by
                      simpa [gzPaired, hfat] using ha
                    have hr2b : gzPaired (r2 ++ b) = true := by
                      have := ih b (by simp [gzPaired, ha2.2]) hb
                      simpa [gzPaired] using this
                    simp [gzPaired, hfat, ha2.1, hr2b]

theorem gzPaired_read_cons (g : Nat) (l : List GEv) :
    gzPaired (GEv.read g :: l) = gzPaired l := rfl

theorem dgzInner_paired {σ : Type} (E : ZlibInf σ) :
    ∀ (f : Nat) (eng : σ) (avail : List Byte),
      gzPaired (dgzInner E f eng avail).2 = true := by
  intro f
  induction f with
  | zero => intro eng avail; rfl
  | succ f ih =>
      intro eng avail
      rcases hstep : E.inflate eng avail CHUNK with ⟨st2, cons, prod, ret⟩
      by_cases hfat : ret.isFatal = true
      · simp [dgzInner, hstep, hfat, gzPaired]
      · rw [Bool.not_eq_true] at hfat
        by_cases hfull : CHUNK - prod.length = 0
        · rcases hrec : dgzInner E f st2 (avail.drop cons) with ⟨res, evs2⟩
          have ihev : gzPaired evs2 = true := by
            have h := ih st2 (avail.drop cons)
            rw [hrec] at h
            exact h
          cases res with
          | none => simp [dgzInner, hstep, hfat, hfull, hrec, gzPaired, ihev]
          | some r5 => simp [dgzInner, hstep, hfat, hfull, hrec, gzPaired, ihev]
        · simp [dgzInner, hstep, hfat, hfull, gzPaired]

theorem dgzipRun_paired {σ : Type} (E : ZlibInf σ) :
    ∀ (fuel : Nat) (s : GSt σ), gzPaired (dgzipRun E fuel s).2 = true := by
  intro fuel
  induction fuel with
  | zero => intro s; rfl
  | succ f ih =>
      intro s
      cases hcs : s.chunks with
      | nil =>
          rcases hinner : dgzInner E (f+1) s.eng ([] : List Byte) with ⟨res, evs⟩
          have hpe : gzPaired evs = true := by
            have h := dgzInner_paired E (f+1) s.eng ([] : List Byte)
            rw [hinner] at h
            exact h
          cases res with
          | none => simp [dgzipRun, hcs, hinner, gzPaired, hpe]
          | some r5 =>
              rcases r5 with ⟨e2, a2, ret2, fat, prod⟩
              cases fat with
              | true => simp [dgzipRun, hcs, hinner, gzPaired, hpe]
              | false =>
                  by_cases hend : ret2 = ZlRet.streamEnd
                  · simp [dgzipRun, hcs, hinner, hend, gzPaired, hpe]
                  · simp only [dgzipRun, hcs, hinner]
                    simp only [Bool.false_eq_true, if_false, hend, ite_false]
                    exact gzPaired_append evs _ hpe (ih _)
      | cons c rest =>
          rcases hinner : dgzInner E (f+1) s.eng c with ⟨res, evs⟩
          have hpe : gzPaired evs = true := by
            have h := dgzInner_paired E (f+1) s.eng c
            rw [hinner] at h
            exact h
          cases res with
          | none => simp [dgzipRun, hcs, hinner, gzPaired, hpe]
          | some r5 =>
              rcases r5 with ⟨e2, a2, ret2, fat, prod⟩
              cases fat with
              | true => simp [dgzipRun, hcs, hinner, gzPaired, hpe]
              | false =>
                  by_cases hend : ret2 = ZlRet.streamEnd
                  · simp [dgzipRun, hcs, hinner, hend, gzPaired, hpe]
                  · simp only [dgzipRun, hcs, hinner]
                    simp only [Bool.false_eq_true, if_false, hend, ite_false]
                    exact gzPaired_append evs _ hpe (ih _)

/-- C10: the Zstandard decoder exits successfully (exit 0) as soon as the
backend reports the end of the first complete frame (return value 0): after
the engine invocation that returns 0, the only further event is the final
write — no input byte after that frame is read or decoded, and trailing
bytes are silently ignored rather than decoded or rejected. -/
theorem dzstd_stops_at_first_frame_end {σ : Type} (E : ZstdDec σ)
    (e0 : σ) (cs : List (List Byte)) (fuel : Nat) :
    c10check (dzstdRun E fuel (dzstdInit e0 cs)) = true :=
  dzstd_c10_aux E fuel (dzstdInit e0 cs)

/-- C1: evaluation of the decoders on truncated containers.  The
decompress_zstd.c driver on a truncated frame (first bytes of the frame
magic, final bytes withheld; the engine keeps answering with a nonzero
need-more-input hint) terminates with exit status 0 and empty output —
truncation is silently treated as success, not reported.  The
decompress_gzip.c driver on truncated input (engine answering Z_BUF_ERROR,
which its error check ignores) never terminates for any fuel. -/
theorem truncated_container_not_rejected :
    ((dzstdRun zstdNeedMore 5 (dzstdInit 0 [[40, 181, 47]])).1.map
        (fun r => (r.1, r.2.written))) = some (0, ([] : List Byte)) ∧
    (∀ (fuel : Nat) (cs : List (List Byte)) (w : List Byte),
      (dgzipRun zlibStall fuel ⟨(), cs, w⟩).1 = none) :=
  ⟨by decide, dgzip_stalls_forever⟩

theorem dzstdBody_ok {σ : Type} (E : ZstdDec σ) (hE : ZstdWF E)
    (s : ZSt σ) (hs : ZInv s) (e1 : List ZEv) (he1 : e1.all zCursorOk = true) :
    ((dzstdBody E s e1).2.all zCursorOk = true) ∧
    (∀ s2, (dzstdBody E s e1).1 = Sum.inl s2 → ZInv s2) := by
  rcases hstep : E.step s.eng (s.inBuf.drop s.pos) CHUNK with ⟨st2, cons, prod, ret⟩
  have hcons : cons ≤ s.inBuf.length - s.pos := by
    have h := (hE s.eng (s.inBuf.drop s.pos) CHUNK).1
    rw [hstep] at h
    simpa using h
  have hpos : s.pos + cons ≤ s.inBuf.length := by
    have := hs.1
    omega
  have hev : zCursorOk (ZEv.code ret prod.length (s.pos + cons) s.inBuf.length) = true := by
    simp [zCursorOk, hpos, hs.2.1]
  cases ret with
  | err =>
      constructor
      · simp [dzstdBody, hstep, List.all_append, he1, hev]
      · intro s2 h2
        simp [dzstdBody, hstep] at h2
  | hint h =>
      cases h with
      | zero =>
          constructor
          · simp [dzstdBody, hstep, List.all_append, he1, zCursorOk]
            exact ⟨hpos, hs.2.1⟩
          · intro s2 h2
            simp [dzstdBody, hstep] at h2
      | succ m =>
          constructor
          · simp [dzstdBody, hstep, List.all_append, he1, zCursorOk]
            exact ⟨hpos, hs.2.1⟩
          · intro s2 h2
            simp only [dzstdBody, hstep] at h2
            have h3 := Sum.inl.inj h2
            rw [← h3]
            exact ⟨hpos, hs.2.1, hs.2.2⟩

theorem dzstd_assemble {σ : Type} (E : ZstdDec σ) (hE : ZstdWF E) (f : Nat)
    (ih : ∀ s2 : ZSt σ, ZInv s2 → ((dzstdRun E f s2).2.all zCursorOk) = true)
    (s : ZSt σ) (hs : ZInv s) (e1 : List ZEv) (he1 : e1.all zCursorOk = true) :
    ((match dzstdBody E s e1 with
      | (Sum.inr r, evs) => (some r, evs)
      | (Sum.inl s2, evs) =>
          ((dzstdRun E f s2).1, evs ++ (dzstdRun E f s2).2)).2.all zCursorOk) = true := by
  have hb := dzstdBody_ok E hE s hs e1 he1
  rcases hbody : dzstdBody E s e1 with ⟨o, evs⟩
  rw [hbody] at hb
  cases o with
  | inr r => simpa using hb.1
  | inl s2 =>
      have h2 := ih s2 (hb.2 s2 rfl)
      simp [List.all_append, hb.1, h2]

theorem dzstd_cursor_aux {σ : Type} (E : ZstdDec σ) (hE : ZstdWF E) :
    ∀ fuel (s : ZSt σ), ZInv s → ((dzstdRun E fuel s).2.all zCursorOk) = true := by
  intro fuel
  induction fuel with
  | zero => intro s _; rfl
  | succ f ih =>
      intro s hs
      have hrun : dzstdRun E (f + 1) s =
          (match dzstdIter E s with
           | (Sum.inr r, evs) => (some r, evs)
           | (Sum.inl s2, evs) =>
               ((dzstdRun E f s2).1, evs ++ (dzstdRun E f s2).2)) := rfl
      rw [hrun]
      unfold dzstdIter
      by_cases hrd : s.inBuf.length ≤ s.pos
      · rw [if_pos hrd]
        have heq : s.pos = s.inBuf.length := le_antisymm hs.1 hrd
        cases hc : s.chunks with
        | nil => simp [zCursorOk, heq, hs.2.1]
        | cons c rest =>
            have hs2 : ZInv ({ s with chunks := rest, inBuf := c, pos := 0 } : ZSt σ) := by
              refine ⟨Nat.zero_le _, ?_, ?_⟩
              · exact hs.2.2 c (by rw [hc]; exact List.mem_cons_self c rest)
              · intro c2 hc2
                exact hs.2.2 c2 (by rw [hc]; exact List.mem_cons_of_mem c hc2)
            have he1 : ([ZEv.read s.pos s.inBuf.length c.length]).all zCursorOk = true := by
              simp [zCursorOk, heq, hs.2.1]
            exact dzstd_assemble E hE f ih _ hs2 _ he1
      · rw [if_neg hrd]
        exact dzstd_assemble E hE f ih s hs [] rfl

theorem dxzBody_ok {σ : Type} (E : LzCodec σ)
    (s : XSt σ) (hs : XInv s) (e1 : List XEv) (he1 : e1.all xCursorOk = true) :
    ((dxzBody E s e1).2.all xCursorOk = true) ∧
    (∀ s2, (dxzBody E s e1).1 = Sum.inl s2 → XInv s2) := by
  obtain ⟨h1, h2, h3⟩ := hs
  rcases hstep : E.code s.eng s.act s.availIn CHUNK with ⟨st2, cons, prod, ret⟩
  cases ret with
  | err =>
      constructor
      · simp only [dxzBody, hstep, List.all_append]
        simp [he1, xCursorOk]
        try dsimp only
        omega
      · intro s2 hi
        simp [dxzBody, hstep] at hi
  | streamEnd =>
      constructor
      · simp only [dxzBody, hstep, List.all_append]
        simp [he1, xCursorOk]
        try dsimp only
        omega
      · intro s2 hi
        simp [dxzBody, hstep] at hi
  | ok =>
      constructor
      · simp only [dxzBody, hstep, List.all_append]
        simp [he1, xCursorOk]
        try dsimp only
        omega
      · intro s2 hi
        simp only [dxzBody, hstep] at hi
        have h4 := Sum.inl.inj hi
        rw [← h4]
        refine ⟨?_, h2, h3⟩
        show (s.availIn.drop cons).length ≤ s.fillLen
        rw [List.length_drop]
        omega

theorem dxz_assemble {σ : Type} (E : LzCodec σ) (f : Nat)
    (ih : ∀ s2 : XSt σ, XInv s2 → ((dxzRun E f s2).2.all xCursorOk) = true)
    (s : XSt σ) (hs : XInv s) (e1 : List XEv) (he1 : e1.all xCursorOk = true) :
    ((match dxzBody E s e1 with
      | (Sum.inr r, evs) => (some r, evs)
      | (Sum.inl s2, evs) =>
          ((dxzRun E f s2).1, evs ++ (dxzRun E f s2).2)).2.all xCursorOk) = true := by
  have hb := dxzBody_ok E s hs e1 he1
  rcases hbody : dxzBody E s e1 with ⟨o, evs⟩
  rw [hbody] at hb
  cases o with
  | inr r => simpa using hb.1
  | inl s2 =>
      have h2 := ih s2 (hb.2 s2 rfl)
      simp [List.all_append, hb.1, h2]

theorem dxz_cursor_aux {σ : Type} (E : LzCodec σ) :
    ∀ fuel (s : XSt σ), XInv s → ((dxzRun E fuel s).2.all xCursorOk) = true := by
  intro fuel
  induction fuel with
  | zero => intro s _; rfl
  | succ f ih =>
      intro s hs
      have hrun : dxzRun E (f + 1) s =
          (match dxzIter E s with
           | (Sum.inr r, evs) => (some r, evs)
           | (Sum.inl s2, evs) =>
               ((dxzRun E f s2).1, evs ++ (dxzRun E f s2).2)) := rfl
      rw [hrun]
      unfold dxzIter
      by_cases hrd : s.availIn.length = 0
      · rw [if_pos hrd]
        cases hc : s.chunks with
        | nil =>
            refine dxz_assemble E f ih _ ⟨Nat.zero_le _, by simp [CHUNK], ?_⟩ _
              (by simp [xCursorOk, hrd, hs.2.1])
            intro c2 hc2
            exact hs.2.2 c2 (by rw [hc]; exact hc2)
        | cons c rest =>
            have hcl : c.length ≤ CHUNK :=
              hs.2.2 c (by rw [hc]; exact List.mem_cons_self c rest)
            refine dxz_assemble E f ih _ ⟨le_refl _, hcl, ?_⟩ _
              (by simp [xCursorOk, hrd, hs.2.1])
            intro c2 hc2
            exact hs.2.2 c2 (by rw [hc]; exact List.mem_cons_of_mem c hc2)
      · rw [if_neg hrd]
        exact dxz_assemble E f ih s hs [] rfl

theorem dembBody_ok {σ : Type} (E : XzEmbDec σ) (hE : XzEmbWF E)
    (s : ESt σ) (hs : EInv s) (e1 : List EEv) (he1 : e1.all eCursorOk = true) :
    ((dembBody E s e1).2.all eCursorOk = true) ∧
    (∀ s2, (dembBody E s e1).1 = Sum.inl s2 → EInv s2) := by
  obtain ⟨h1, h2, h3⟩ := hs
  rcases hstep : E.step s.eng (s.inBuf.drop s.inPos) CHUNK with ⟨st2, cons, prod, ret⟩
  have hcons : cons ≤ s.inBuf.length - s.inPos := by
    have h := (hE s.eng (s.inBuf.drop s.inPos) CHUNK).1
    rw [hstep] at h
    simpa using h
  have hpos : s.inPos + cons ≤ s.inBuf.length := by omega
  cases ret with
  | err =>
      constructor
      · by_cases hw : 0 < prod.length
        · simp only [dembBody, hstep, if_pos hw, List.all_append]
          simp [he1, eCursorOk]
          try dsimp only
          omega
        · simp only [dembBody, hstep, if_neg hw, List.all_append]
          simp [he1, eCursorOk]
          try dsimp only
          omega
      · intro s2 hi
        by_cases hw : 0 < prod.length
        · simp [dembBody, hstep, if_pos hw] at hi
        · simp [dembBody, hstep, if_neg hw] at hi
  | streamEnd =>
      constructor
      · by_cases hw : 0 < prod.length
        · simp only [dembBody, hstep, if_pos hw, List.all_append]
          simp [he1, eCursorOk]
          try dsimp only
          omega
        · simp only [dembBody, hstep, if_neg hw, List.all_append]
          simp [he1, eCursorOk]
          try dsimp only
          omega
      · intro s2 hi
        by_cases hw : 0 < prod.length
        · simp [dembBody, hstep, if_pos hw] at hi
        · simp [dembBody, hstep, if_neg hw] at hi
  | ok =>
      constructor
      · by_cases hw : 0 < prod.length
        · by_cases hcond : 0 < s.inBuf.length ∨ s.eof = false
          · simp only [dembBody, hstep, if_pos hw, if_pos hcond, List.all_append]
            simp [he1, eCursorOk]
            try dsimp only
            omega
          · simp only [dembBody, hstep, if_pos hw, if_neg hcond, List.all_append]
            simp [he1, eCursorOk]
            try dsimp only
            omega
        · by_cases hcond : 0 < s.inBuf.length ∨ s.eof = false
          · simp only [dembBody, hstep, if_neg hw, if_pos hcond, List.all_append]
            simp [he1, eCursorOk]
            try dsimp only
            omega
          · simp only [dembBody, hstep, if_neg hw, if_neg hcond, List.all_append]
            simp [he1, eCursorOk]
            try dsimp only
            omega
      · intro s2 hi
        by_cases hw : 0 < prod.length
        · by_cases hcond : 0 < s.inBuf.length ∨ s.eof = false
          · simp only [dembBody, hstep, if_pos hw, if_pos hcond] at hi
            have h4 := Sum.inl.inj hi
            rw [← h4]
            exact ⟨hpos, h2, h3⟩
          · simp [dembBody, hstep, if_pos hw, if_neg hcond] at hi
        · by_cases hcond : 0 < s.inBuf.length ∨ s.eof = false
          · simp only [dembBody, hstep, if_neg hw, if_pos hcond] at hi
            have h4 := Sum.inl.inj hi
            rw [← h4]
            exact ⟨hpos, h2, h3⟩
          · simp [dembBody, hstep, if_neg hw, if_neg hcond] at hi

theorem demb_assemble {σ : Type} (E : XzEmbDec σ) (hE : XzEmbWF E) (f : Nat)
    (ih : ∀ s2 : ESt σ, EInv s2 → ((dembRun E f s2).2.all eCursorOk) = true)
    (s : ESt σ) (hs : EInv s) (e1 : List EEv) (he1 : e1.all eCursorOk = true) :
    ((match dembBody E s e1 with
      | (Sum.inr r, evs) => (some r, evs)
      | (Sum.inl s2, evs) =>
          ((dembRun E f s2).1, evs ++ (dembRun E f s2).2)).2.all eCursorOk) = true := by
  have hb := dembBody_ok E hE s hs e1 he1
  rcases hbody : dembBody E s e1 with ⟨o, evs⟩
  rw [hbody] at hb
  cases o with
  | inr r => simpa using hb.1
  | inl s2 =>
      have h2 := ih s2 (hb.2 s2 rfl)
      simp [List.all_append, hb.1, h2]

theorem demb_cursor_aux {σ : Type} (E : XzEmbDec σ) (hE : XzEmbWF E) :
    ∀ fuel (s : ESt σ), EInv s → ((dembRun E fuel s).2.all eCursorOk) = true := by
  intro fuel
  induction fuel with
  | zero => intro s _; rfl
  | succ f ih =>
      intro s hs
      have hrun : dembRun E (f + 1) s =
          (match dembIter E s with
           | (Sum.inr r, evs) => (some r, evs)
           | (Sum.inl s2, evs) =>
               ((dembRun E f s2).1, evs ++ (dembRun E f s2).2)) := rfl
      rw [hrun]
      unfold dembIter
      by_cases hrd : s.inPos = s.inBuf.length ∧ s.eof = false
      · rw [if_pos hrd]
        cases hc : s.chunks with
        | nil =>
            refine demb_assemble E hE f ih _ ⟨Nat.zero_le _, by simp [CHUNK], ?_⟩ _
              (by simp [eCursorOk, hrd.1, hs.2.1])
            intro c2 hc2
            exact hs.2.2 c2 (by rw [hc]; exact hc2)
        | cons c rest =>
            have hcl : c.length ≤ CHUNK :=
              hs.2.2 c (by rw [hc]; exact List.mem_cons_self c rest)
            refine demb_assemble E hE f ih _ ⟨Nat.zero_le _, hcl, ?_⟩ _
              (by simp [eCursorOk, hrd.1, hs.2.1])
            intro c2 hc2
            exact hs.2.2 c2 (by rw [hc]; exact List.mem_cons_of_mem c hc2)
      · rw [if_neg hrd]
        exact demb_assemble E hE f ih s hs [] rfl

theorem xzFinishFrom_append (a b : List XEv) :
    xzFinishFrom (a ++ b) = (xzFinishFrom a && xzFinishFrom b) := by
  induction a with
  | nil => simp [xzFinishFrom]
  | cons e rest ih =>
      cases e with
      | read p f g => simpa [xzFinishFrom] using ih
      | write n => simpa [xzFinishFrom] using ih
      | code act r pl aa fa => simp [xzFinishFrom, ih, Bool.and_assoc]

theorem tFinishFrom_append (a b : List TEv) :
    tFinishFrom (a ++ b) = (tFinishFrom a && tFinishFrom b) := by
  induction a with
  | nil => simp [tFinishFrom]
  | cons e rest ih =>
      cases e with
      | read p f g => simpa [tFinishFrom] using ih
      | write n ok => simpa [tFinishFrom] using ih
      | code act r pl aa pa => simp [tFinishFrom, ih, Bool.and_assoc]

theorem xzEofFinish_of_finishFrom : ∀ l : List XEv,
    xzFinishFrom l = true → xzEofFinish l = true := by
  intro l
  induction l with
  | nil => intro _; rfl
  | cons e rest ih =>
      intro h
      cases e with
      | read p f g =>
          rw [xzFinishFrom] at h
          cases g with
          | zero => rw [xzEofFinish]; exact h
          | succ m => rw [xzEofFinish]; exact ih h
      | write n =>
          rw [xzFinishFrom] at h
          rw [xzEofFinish]
          exact ih h
      | code a r pl aa fa =>
          rw [xzFinishFrom] at h
          simp only [Bool.and_eq_true] at h
          rw [xzEofFinish]
          exact ih h.2

theorem dxzBody_split {σ : Type} (E : LzCodec σ) (s : XSt σ) (e1 : List XEv) :
    dxzBody E s e1 = ((dxzBody E s []).1, e1 ++ (dxzBody E s []).2) := by
  rcases hstep : E.code s.eng s.act s.availIn CHUNK with ⟨st2, cons, prod, ret⟩
  cases ret with
  | err => simp [dxzBody, hstep]
  | streamEnd => simp [dxzBody, hstep]
  | ok => simp [dxzBody, hstep]

theorem dxzBody_shape {σ : Type} (E : LzCodec σ) (s : XSt σ) :
    (∃ a r pl aa fa, (dxzBody E s []).2 = [XEv.code a r pl aa fa]) ∨
    (∃ a r pl aa fa n, (dxzBody E s []).2 =
      [XEv.code a r pl aa fa, XEv.write n]) := by
  rcases hstep : E.code s.eng s.act s.availIn CHUNK with ⟨st2, cons, prod, ret⟩
  cases ret with
  | err =>
      left
      refine ⟨s.act, LzRet.err, prod.length, (s.availIn.drop cons).length,
        s.fillLen, ?_⟩
      simp [dxzBody, hstep]
  | streamEnd =>
      right
      refine ⟨s.act, LzRet.streamEnd, prod.length, (s.availIn.drop cons).length,
        s.fillLen, prod.length, ?_⟩
      simp [dxzBody, hstep]
  | ok =>
      right
      refine ⟨s.act, LzRet.ok, prod.length, (s.availIn.drop cons).length,
        s.fillLen, prod.length, ?_⟩
      simp [dxzBody, hstep]

theorem dxzBody_finish {σ : Type} (E : LzCodec σ) (s : XSt σ)
    (hact : s.act = LzAction.finish)
    (e1 : List XEv) (he1 : xzFinishFrom e1 = true) :
    (xzFinishFrom (dxzBody E s e1).2 = true) ∧
    (∀ s2, (dxzBody E s e1).1 = Sum.inl s2 → s2.act = LzAction.finish) := by
  rcases hstep : E.code s.eng s.act s.availIn CHUNK with ⟨st2, cons, prod, ret⟩
  cases ret with
  | err =>
      constructor
      · simp only [dxzBody, hstep]
        simp [xzFinishFrom_append, he1, xzFinishFrom, hact]
      · intro s2 hi
        simp [dxzBody, hstep] at hi
  | streamEnd =>
      constructor
      · simp only [dxzBody, hstep]
        simp [xzFinishFrom_append, he1, xzFinishFrom, hact]
      · intro s2 hi
        simp [dxzBody, hstep] at hi
  | ok =>
      constructor
      · simp only [dxzBody, hstep]
        simp [xzFinishFrom_append, he1, xzFinishFrom, hact]
      · intro s2 hi
        simp only [dxzBody, hstep] at hi
        have h4 := Sum.inl.inj hi
        rw [← h4]
        exact hact

theorem dxz_finish_aux {σ : Type} (E : LzCodec σ) :
    ∀ fuel (s : XSt σ), s.act = LzAction.finish →
      xzFinishFrom (dxzRun E fuel s).2 = true := by
  intro fuel
  induction fuel with
  | zero => intro s _; rfl
  | succ f ih =>
      intro s hact
      have hrun : dxzRun E (f + 1) s =
          (match dxzIter E s with
           | (Sum.inr r, evs) => (some r, evs)
           | (Sum.inl s2, evs) =>
               ((dxzRun E f s2).1, evs ++ (dxzRun E f s2).2)) := rfl
      rw [hrun]
      have hassem : ∀ (s' : XSt σ) (e1 : List XEv),
          s'.act = LzAction.finish → xzFinishFrom e1 = true →
          xzFinishFrom ((match dxzBody E s' e1 with
            | (Sum.inr r, evs) => (some r, evs)
            | (Sum.inl s2, evs) =>
                ((dxzRun E f s2).1, evs ++ (dxzRun E f s2).2)).2) = true := by
        intro s' e1 ha he
        have hb := dxzBody_finish E s' ha e1 he
        rcases hbody : dxzBody E s' e1 with ⟨o, evs⟩
        rw [hbody] at hb
        cases o with
        | inr r => simpa using hb.1
        | inl s2 => simp [xzFinishFrom_append, hb.1, ih s2 (hb.2 s2 rfl)]
      unfold dxzIter
      by_cases hrd : s.availIn.length = 0
      · rw [if_pos hrd]
        cases hc : s.chunks with
        | nil => exact hassem _ _ rfl (by simp [xzFinishFrom])
        | cons c rest =>
            refine hassem _ _ ?_ (by simp [xzFinishFrom])
            show (if c.length = 0 then LzAction.finish else s.act) = LzAction.finish
            rw [hact]
            simp
      · rw [if_neg hrd]
        exact hassem s [] hact rfl

theorem dxz_eof_stepA {σ : Type} (E : LzCodec σ) (f : Nat) (s' : XSt σ)
    (hact : s'.act = LzAction.finish) (p fl : Nat) :
    xzEofFinish ((match dxzBody E s' [XEv.read p fl 0] with
      | (Sum.inr r, evs) => (some r, evs)
      | (Sum.inl s2, evs) =>
          ((dxzRun E f s2).1, evs ++ (dxzRun E f s2).2)).2) = true := by
  have hsplit := dxzBody_split E s' [XEv.read p fl 0]
  rcases hbody : dxzBody E s' [] with ⟨o, evs⟩
  rw [hbody] at hsplit
  rw [hsplit]
  have hb := dxzBody_finish E s' hact [] rfl
  rw [hbody] at hb
  cases o with
  | inr r =>
      show xzEofFinish (XEv.read p fl 0 :: evs) = true
      rw [xzEofFinish]
      exact hb.1
  | inl s2 =>
      show xzEofFinish ((XEv.read p fl 0 :: evs) ++ (dxzRun E f s2).2) = true
      rw [List.cons_append, xzEofFinish, xzFinishFrom_append]
      simp [hb.1, dxz_finish_aux E f s2 (hb.2 s2 rfl)]

theorem dxz_eof_stepB {σ : Type} (E : LzCodec σ) (f : Nat)
    (ih : ∀ s2 : XSt σ, xzEofFinish (dxzRun E f s2).2 = true)
    (s' : XSt σ) (p fl m : Nat) :
    xzEofFinish ((match dxzBody E s' [XEv.read p fl (Nat.succ m)] with
      | (Sum.inr r, evs) => (some r, evs)
      | (Sum.inl s2, evs) =>
          ((dxzRun E f s2).1, evs ++ (dxzRun E f s2).2)).2) = true := by
  have hsplit := dxzBody_split E s' [XEv.read p fl (Nat.succ m)]
  rcases hbody : dxzBody E s' [] with ⟨o, evs⟩
  rw [hbody] at hsplit
  rw [hsplit]
  have hsh := dxzBody_shape E s'
  rw [hbody] at hsh
  dsimp only at hsh
  cases o with
  | inr r =>
      show xzEofFinish (XEv.read p fl (Nat.succ m) :: evs) = true
      rw [xzEofFinish]
      rcases hsh with ⟨a, r2, pl, aa, fa, hev⟩ | ⟨a, r2, pl, aa, fa, n, hev⟩
      · rw [hev]; rfl
      · rw [hev]; rfl
  | inl s2 =>
      show xzEofFinish
        ((XEv.read p fl (Nat.succ m) :: evs) ++ (dxzRun E f s2).2) = true
      rw [List.cons_append, xzEofFinish]
      rcases hsh with ⟨a, r2, pl, aa, fa, hev⟩ | ⟨a, r2, pl, aa, fa, n, hev⟩
      · rw [hev, List.cons_append, List.nil_append, xzEofFinish]
        exact ih s2
      · rw [hev, List.cons_append, List.cons_append, List.nil_append,
          xzEofFinish, xzEofFinish]
        exact ih s2

theorem dxz_eof_stepC {σ : Type} (E : LzCodec σ) (f : Nat)
    (ih : ∀ s2 : XSt σ, xzEofFinish (dxzRun E f s2).2 = true) (s' : XSt σ) :
    xzEofFinish ((match dxzBody E s' [] with
      | (Sum.inr r, evs) => (some r, evs)
      | (Sum.inl s2, evs) =>
          ((dxzRun E f s2).1, evs ++ (dxzRun E f s2).2)).2) = true := by
  rcases hbody : dxzBody E s' [] with ⟨o, evs⟩
  have hsh := dxzBody_shape E s'
  rw [hbody] at hsh
  dsimp only at hsh
  cases o with
  | inr r =>
      show xzEofFinish evs = true
      rcases hsh with ⟨a, r2, pl, aa, fa, hev⟩ | ⟨a, r2, pl, aa, fa, n, hev⟩
      · rw [hev]; rfl
      · rw [hev]; rfl
  | inl s2 =>
      show xzEofFinish (evs ++ (dxzRun E f s2).2) = true
      rcases hsh with ⟨a, r2, pl, aa, fa, hev⟩ | ⟨a, r2, pl, aa, fa, n, hev⟩
      · rw [hev, List.cons_append, List.nil_append, xzEofFinish]
        exact ih s2
      · rw [hev, List.cons_append, List.cons_append, List.nil_append,
          xzEofFinish, xzEofFinish]
        exact ih s2

theorem dxz_eofFinish_aux {σ : Type} (E : LzCodec σ) :
    ∀ fuel (s : XSt σ), xzEofFinish (dxzRun E fuel s).2 = true := by
  intro fuel
  induction fuel with
  | zero => intro s; rfl
  | succ f ih =>
      intro s
      have hrun : dxzRun E (f + 1) s =
          (match dxzIter E s with
           | (Sum.inr r, evs) => (some r, evs)
           | (Sum.inl s2, evs) =>
               ((dxzRun E f s2).1, evs ++ (dxzRun E f s2).2)) := rfl
      rw [hrun]
      unfold dxzIter
      by_cases hrd : s.availIn.length = 0
      · rw [if_pos hrd]
        cases hc : s.chunks with
        | nil =>
            dsimp only
            refine dxz_eof_stepA E f _ ?_ _ _
            rfl
        | cons c rest =>
            dsimp only
            cases hcl : c.length with
            | zero =>
                refine dxz_eof_stepA E f _ ?_ _ _
                rfl
            | succ m => exact dxz_eof_stepB E f ih _ _ _ _
      · rw [if_neg hrd]
        exact dxz_eof_stepC E f ih s

theorem temsxzEnd_evs {σ : Type} (ret : LzRet) (s : TSt σ) (evs : List TEv) :
    (temsxzEnd ret s evs).2 = evs := by
  cases ret <;> rfl

theorem temsxzEnd_inl {σ : Type} (ret : LzRet) (s s2 : TSt σ) (evs : List TEv)
    (h : (temsxzEnd ret s evs).1 = Sum.inl s2) : s2 = s := by
  cases ret with
  | ok => exact (Sum.inl.inj h).symm
  | streamEnd => exact absurd h (by simp [temsxzEnd])
  | err => exact absurd h (by simp [temsxzEnd])

theorem tEofFinish_of_finishFrom : ∀ l : List TEv,
    tFinishFrom l = true → tEofFinish l = true := by
  intro l
  induction l with
  | nil => intro _; rfl
  | cons e rest ih =>
      intro h
      cases e with
      | read p f g =>
          rw [tFinishFrom] at h
          cases g with
          | zero => rw [tEofFinish]; exact h
          | succ m => rw [tEofFinish]; exact ih h
      | write n ok =>
          rw [tFinishFrom] at h
          rw [tEofFinish]
          exact ih h
      | code a r pl aa pa =>
          rw [tFinishFrom] at h
          simp only [Bool.and_eq_true] at h
          rw [tEofFinish]
          exact ih h.2

theorem temsxzBody_shape {σ : Type} (E : LzCodec σ) (s : TSt σ) :
    (∃ r pl aa pa, (temsxzBody E s).2 = [TEv.code s.act r pl aa pa]) ∨
    (∃ r pl aa pa n b, (temsxzBody E s).2 =
      [TEv.code s.act r pl aa pa, TEv.write n b]) := by
  rcases hstep : E.code s.eng s.act s.availIn (CHUNK - s.pending.length)
    with ⟨st2, cons, prod, ret⟩
  by_cases htrig : CHUNK - (s.pending ++ prod).length = 0 ∨ ret ≠ LzRet.ok
  · by_cases hws : 0 < (s.pending ++ prod).length
    · cases hcap : s.outCap with
      | none =>
          right
          refine ⟨ret, prod.length, (s.availIn.drop cons).length,
            (s.pending ++ prod).length, (s.pending ++ prod).length, true, ?_⟩
          simp only [temsxzBody, hstep, hcap, if_pos htrig, if_pos hws]
          rw [temsxzEnd_evs]
      | some k =>
          by_cases hk : k < (s.pending ++ prod).length
          · right
            refine ⟨ret, prod.length, (s.availIn.drop cons).length,
              (s.pending ++ prod).length, (s.pending ++ prod).length, false, ?_⟩
            simp only [temsxzBody, hstep, hcap, if_pos htrig, if_pos hws, if_pos hk]
          · right
            refine ⟨ret, prod.length, (s.availIn.drop cons).length,
              (s.pending ++ prod).length, (s.pending ++ prod).length, true, ?_⟩
            simp only [temsxzBody, hstep, hcap, if_pos htrig, if_pos hws, if_neg hk]
            rw [temsxzEnd_evs]
    · left
      refine ⟨ret, prod.length, (s.availIn.drop cons).length,
        (s.pending ++ prod).length, ?_⟩
      simp only [temsxzBody, hstep, if_pos htrig, if_neg hws]
      rw [temsxzEnd_evs]
  · left
    refine ⟨ret, prod.length, (s.availIn.drop cons).length,
      (s.pending ++ prod).length, ?_⟩
    simp only [temsxzBody, hstep, if_neg htrig]
    rw [temsxzEnd_evs]

theorem temsxzBody_inl {σ : Type} (E : LzCodec σ) (s : TSt σ) (s2 : TSt σ)
    (h : (temsxzBody E s).1 = Sum.inl s2) :
    s2.act = s.act ∧ s2.chunks = s.chunks := by
  rcases hstep : E.code s.eng s.act s.availIn (CHUNK - s.pending.length)
    with ⟨st2, cons, prod, ret⟩
  by_cases htrig : CHUNK - (s.pending ++ prod).length = 0 ∨ ret ≠ LzRet.ok
  · by_cases hws : 0 < (s.pending ++ prod).length
    · cases hcap : s.outCap with
      | none =>
          simp only [temsxzBody, hstep, hcap, if_pos htrig, if_pos hws] at h
          have h2 := temsxzEnd_inl _ _ _ _ h
          rw [h2]
          exact ⟨rfl, rfl⟩
      | some k =>
          by_cases hk : k < (s.pending ++ prod).length
          · simp only [temsxzBody, hstep, hcap, if_pos htrig, if_pos hws,
              if_pos hk] at h
            exact Sum.noConfusion h
          · simp only [temsxzBody, hstep, hcap, if_pos htrig, if_pos hws,
              if_neg hk] at h
            have h2 := temsxzEnd_inl _ _ _ _ h
            rw [h2]
            exact ⟨rfl, rfl⟩
    · simp only [temsxzBody, hstep, if_pos htrig, if_neg hws] at h
      have h2 := temsxzEnd_inl _ _ _ _ h
      rw [h2]
      exact ⟨rfl, rfl⟩
  · simp only [temsxzBody, hstep, if_neg htrig] at h
    have h2 := temsxzEnd_inl _ _ _ _ h
    rw [h2]
    exact ⟨rfl, rfl⟩

theorem temsxzBody_finish {σ : Type} (E : LzCodec σ) (s : TSt σ)
    (hact : s.act = LzAction.finish) :
    tFinishFrom (temsxzBody E s).2 = true := by
  rcases temsxzBody_shape E s with ⟨r, pl, aa, pa, hev⟩ | ⟨r, pl, aa, pa, n, b, hev⟩
  · rw [hev, tFinishFrom, hact]
    simp [tFinishFrom]
  · rw [hev, tFinishFrom, hact]
    simp [tFinishFrom]

theorem temsxzRead_act {σ : Type} (s : TSt σ) (hact : s.act = LzAction.finish) :
    (temsxzRead s).1.act = LzAction.finish := by
  unfold temsxzRead
  by_cases hg : s.availIn.length = 0 ∧ s.eof = false
  · rw [if_pos hg]
    cases s.chunks with
    | nil => rfl
    | cons c rest =>
        show (if rest.isEmpty then LzAction.finish else s.act) = LzAction.finish
        rw [hact]
        simp
  · rw [if_neg hg]
    exact hact

theorem temsxzRead_shape {σ : Type} (s : TSt σ) :
    (temsxzRead s).2 = [] ∨ ∃ p fl g, (temsxzRead s).2 = [TEv.read p fl g] := by
  unfold temsxzRead
  by_cases hg : s.availIn.length = 0 ∧ s.eof = false
  · rw [if_pos hg]
    cases s.chunks with
    | nil =>
        right
        exact ⟨_, _, _, rfl⟩
    | cons c rest =>
        right
        exact ⟨_, _, _, rfl⟩
  · rw [if_neg hg]
    left
    rfl

theorem t_finish_aux {σ : Type} (E : LzCodec σ) :
    ∀ fuel (s : TSt σ), s.act = LzAction.finish →
      tFinishFrom (temsxzRun E fuel s).2 = true := by
  intro fuel
  induction fuel with
  | zero => intro s _; rfl
  | succ f ih =>
      intro s hact
      have hrun : temsxzRun E (f + 1) s =
          (match temsxzIter E s with
           | (Sum.inr r, evs) => (some r, evs)
           | (Sum.inl s2, evs) =>
               ((temsxzRun E f s2).1, evs ++ (temsxzRun E f s2).2)) := rfl
      rw [hrun]
      have hiter : temsxzIter E s = ((temsxzBody E (temsxzRead s).1).1,
          (temsxzRead s).2 ++ (temsxzBody E (temsxzRead s).1).2) := rfl
      rw [hiter]
      have hact2 := temsxzRead_act s hact
      rcases hbody : temsxzBody E (temsxzRead s).1 with ⟨o, evs⟩
      have hfin := temsxzBody_finish E (temsxzRead s).1 hact2
      rw [hbody] at hfin
      dsimp only at hfin
      cases o with
      | inr r =>
          show tFinishFrom ((temsxzRead s).2 ++ evs) = true
          rw [tFinishFrom_append]
          rcases temsxzRead_shape s with hsh | ⟨p, fl, g, hsh⟩
          · rw [hsh]
            simp [tFinishFrom, hfin]
          · rw [hsh]
            simp [tFinishFrom, hfin]
      | inl s2 =>
          show tFinishFrom (((temsxzRead s).2 ++ evs) ++ (temsxzRun E f s2).2) = true
          have hs2 := temsxzBody_inl E (temsxzRead s).1 s2 (by rw [hbody])
          have hact3 : s2.act = LzAction.finish := by
            rw [hs2.1]
            exact hact2
          rw [tFinishFrom_append, tFinishFrom_append]
          rcases temsxzRead_shape s with hsh | ⟨p, fl, g, hsh⟩
          · rw [hsh]
            simp [tFinishFrom, hfin, ih s2 hact3]
          · rw [hsh]
            simp [tFinishFrom, hfin, ih s2 hact3]

theorem t_eof_stepA {σ : Type} (E : LzCodec σ) (f : Nat) (s' : TSt σ)
    (hact : s'.act = LzAction.finish) (p fl : Nat) :
    tEofFinish ((match ((temsxzBody E s').1,
        [TEv.read p fl 0] ++ (temsxzBody E s').2) with
      | (Sum.inr r, evs) => (some r, evs)
      | (Sum.inl s2, evs) =>
          ((temsxzRun E f s2).1, evs ++ (temsxzRun E f s2).2)).2) = true := by
  rcases hbody : temsxzBody E s' with ⟨o, evs⟩
  have hfin := temsxzBody_finish E s' hact
  rw [hbody] at hfin
  dsimp only at hfin
  cases o with
  | inr r =>
      show tEofFinish (TEv.read p fl 0 :: evs) = true
      rw [tEofFinish]
      exact hfin
  | inl s2 =>
      show tEofFinish ((TEv.read p fl 0 :: evs) ++ (temsxzRun E f s2).2) = true
      rw [List.cons_append, tEofFinish, tFinishFrom_append]
      have hs2 := temsxzBody_inl E s' s2 (by rw [hbody])
      have hact3 : s2.act = LzAction.finish := by
        rw [hs2.1]
        exact hact
      simp [hfin, t_finish_aux E f s2 hact3]

theorem dropLast_tail {α : Type} (c : α) (rest : List α) :
    ∀ x ∈ rest.dropLast, x ∈ (c :: rest).dropLast := by
  intro x hx
  cases rest with
  | nil => exact absurd hx (by simp)
  | cons d ds =>
      rw [List.dropLast_cons₂]
      exact List.mem_cons_of_mem c hx

theorem t_eof_stepB {σ : Type} (E : LzCodec σ) (f : Nat)
    (ih : ∀ s2 : TSt σ, (∀ c ∈ s2.chunks.dropLast, c.length ≠ 0) →
      tEofFinish (temsxzRun E f s2).2 = true)
    (s' : TSt σ) (hne : ∀ c ∈ s'.chunks.dropLast, c.length ≠ 0) (p fl m : Nat) :
    tEofFinish ((match ((temsxzBody E s').1,
        [TEv.read p fl (Nat.succ m)] ++ (temsxzBody E s').2) with
      | (Sum.inr r, evs) => (some r, evs)
      | (Sum.inl s2, evs) =>
          ((temsxzRun E f s2).1, evs ++ (temsxzRun E f s2).2)).2) = true := by
  rcases hbody : temsxzBody E s' with ⟨o, evs⟩
  have hsh := temsxzBody_shape E s'
  rw [hbody] at hsh
  dsimp only at hsh
  cases o with
  | inr r =>
      show tEofFinish (TEv.read p fl (Nat.succ m) :: evs) = true
      rw [tEofFinish]
      rcases hsh with ⟨r2, pl, aa, pa, hev⟩ | ⟨r2, pl, aa, pa, n, b, hev⟩
      · rw [hev]; rfl
      · rw [hev]; rfl
  | inl s2 =>
      show tEofFinish
        ((TEv.read p fl (Nat.succ m) :: evs) ++ (temsxzRun E f s2).2) = true
      rw [List.cons_append, tEofFinish]
      have hs2 := temsxzBody_inl E s' s2 (by rw [hbody])
      have hne2 : ∀ c ∈ s2.chunks.dropLast, c.length ≠ 0 := by
        rw [hs2.2]
        exact hne
      rcases hsh with ⟨r2, pl, aa, pa, hev⟩ | ⟨r2, pl, aa, pa, n, b, hev⟩
      · rw [hev, List.cons_append, List.nil_append, tEofFinish]
        exact ih s2 hne2
      · rw [hev, List.cons_append, List.cons_append, List.nil_append,
          tEofFinish, tEofFinish]
        exact ih s2 hne2

theorem t_eof_stepC {σ : Type} (E : LzCodec σ) (f : Nat)
    (ih : ∀ s2 : TSt σ, (∀ c ∈ s2.chunks.dropLast, c.length ≠ 0) →
      tEofFinish (temsxzRun E f s2).2 = true)
    (s' : TSt σ) (hne : ∀ c ∈ s'.chunks.dropLast, c.length ≠ 0) :
    tEofFinish ((match temsxzBody E s' with
      | (Sum.inr r, evs) => (some r, evs)
      | (Sum.inl s2, evs) =>
          ((temsxzRun E f s2).1, evs ++ (temsxzRun E f s2).2)).2) = true := by
  rcases hbody : temsxzBody E s' with ⟨o, evs⟩
  have hsh := temsxzBody_shape E s'
  rw [hbody] at hsh
  dsimp only at hsh
  cases o with
  | inr r =>
      show tEofFinish evs = true
      rcases hsh with ⟨r2, pl, aa, pa, hev⟩ | ⟨r2, pl, aa, pa, n, b, hev⟩
      · rw [hev]; rfl
      · rw [hev]; rfl
  | inl s2 =>
      show tEofFinish (evs ++ (temsxzRun E f s2).2) = true
      have hs2 := temsxzBody_inl E s' s2 (by rw [hbody])
      have hne2 : ∀ c ∈ s2.chunks.dropLast, c.length ≠ 0 := by
        rw [hs2.2]
        exact hne
      rcases hsh with ⟨r2, pl, aa, pa, hev⟩ | ⟨r2, pl, aa, pa, n, b, hev⟩
      · rw [hev, List.cons_append, List.nil_append, tEofFinish]
        exact ih s2 hne2
      · rw [hev, List.cons_append, List.cons_append, List.nil_append,
          tEofFinish, tEofFinish]
        exact ih s2 hne2

theorem t_eofFinish_aux {σ : Type} (E : LzCodec σ) :
    ∀ fuel (s : TSt σ), (∀ c ∈ s.chunks.dropLast, c.length ≠ 0) →
      tEofFinish (temsxzRun E fuel s).2 = true := by
  intro fuel
  induction fuel with
  | zero => intro s _; rfl
  | succ f ih =>
      intro s hne
      have hrun : temsxzRun E (f + 1) s =
          (match temsxzIter E s with
           | (Sum.inr r, evs) => (some r, evs)
           | (Sum.inl s2, evs) =>
               ((temsxzRun E f s2).1, evs ++ (temsxzRun E f s2).2)) := rfl
      rw [hrun]
      have hiter : temsxzIter E s = ((temsxzBody E (temsxzRead s).1).1,
          (temsxzRead s).2 ++ (temsxzBody E (temsxzRead s).1).2) := rfl
      rw [hiter]
      unfold temsxzRead
      by_cases hg : s.availIn.length = 0 ∧ s.eof = false
      · rw [if_pos hg]
        cases hc : s.chunks with
        | nil =>
            dsimp only
            refine t_eof_stepA E f _ ?_ _ _
            rfl
        | cons c rest =>
            dsimp only
            cases hclen : c.length with
            | zero =>
                have hrest : rest = [] := by
                  cases hr : rest with
                  | nil => rfl
                  | cons d ds =>
                      refine absurd hclen (hne c ?_)
                      rw [hc, hr, List.dropLast_cons₂]
                      exact List.mem_cons_self _ _
                subst hrest
                refine t_eof_stepA E f _ ?_ _ _
                rfl
            | succ m =>
                refine t_eof_stepB E f ih _ ?_ _ _ _
                intro c2 hc2
                refine hne c2 ?_
                rw [hc]
                exact dropLast_tail c rest c2 hc2
      · rw [if_neg hg]
        dsimp only
        exact t_eof_stepC E f ih s hne

/-- C6: in every run of the pump loops of decompress_xz.c and temsxz.c,
once a read returns 0 bytes, the action passed to the engine is
LZMA_FINISH on that iteration and on every later one (the action never
reverts to LZMA_RUN after input exhaustion).  Every chunk but the final
one is assumed nonempty (fread returns 0 only at end of file); the final
chunk may be empty, representing the run in which the last fread before
end of file returns a full buffer and the next fread returns 0 bytes. -/
theorem pump_finish_action_absorbing {σ1 σ2 : Type} (E1 : LzCodec σ1)
    (E2 : LzCodec σ2) (e1 : σ1) (e2 : σ2) (cs : List (List Byte))
    (hne : ∀ c ∈ cs.dropLast, c.length ≠ 0) (cap : Option Nat)
    (fuel1 fuel2 : Nat) :
    xzEofFinish (dxzRun E1 fuel1 (dxzInit e1 cs)).2 = true ∧
    tEofFinish (temsxzRun E2 fuel2 (temsxzInit e2 cs cap)).2 = true :=
  ⟨dxz_eofFinish_aux E1 fuel1 _, t_eofFinish_aux E2 fuel2 _ hne⟩

theorem pump_finish_action_absorbing_witness :
    (∀ c ∈ ([[7], []] : List (List Byte)).dropLast, List.length c ≠ 0) ∧
    (xzEofFinish (dxzRun lzEcho 4 (dxzInit () [[7], []])).2 = true ∧
     tEofFinish (temsxzRun lzEcho 4 (temsxzInit () [[7], []] none)).2 = true) :=
  ⟨by decide,
   pump_finish_action_absorbing lzEcho lzEcho () () [[7], []] (by decide) none 4 4⟩

/-- C7: the decompress_xz.c, decompress_zstd.c and embedded drivers read
from the input stream only when the input buffer is fully consumed
(`read_pos = fill_len`, recorded at every read event), and the cursor
invariant `0 ≤ read_pos ≤ fill_len ≤ CHUNK` holds at every recorded
observation point of every run, for every engine satisfying the backend
capability contract and every stream of chunks of at most CHUNK bytes. -/
theorem pump_reads_only_when_consumed {σ1 σ2 σ3 : Type}
    (E1 : LzCodec σ1) (E2 : ZstdDec σ2) (hE2 : ZstdWF E2)
    (E3 : XzEmbDec σ3) (hE3 : XzEmbWF E3)
    (e1 : σ1) (e2 : σ2) (e3 : σ3) (cs : List (List Byte))
    (hcs : ∀ c ∈ cs, c.length ≤ CHUNK) (fuel : Nat) :
    ((dxzRun E1 fuel (dxzInit e1 cs)).2.all xCursorOk = true) ∧
    ((dzstdRun E2 fuel (dzstdInit e2 cs)).2.all zCursorOk = true) ∧
    ((dembRun E3 fuel (dembInit e3 cs)).2.all eCursorOk = true) :=
  ⟨dxz_cursor_aux E1 fuel _ ⟨Nat.le_refl 0, Nat.zero_le _, hcs⟩,
   dzstd_cursor_aux E2 hE2 fuel _ ⟨Nat.le_refl 0, Nat.zero_le _, hcs⟩,
   demb_cursor_aux E3 hE3 fuel _ ⟨Nat.le_refl 0, Nat.zero_le _, hcs⟩⟩

theorem pump_reads_only_when_consumed_witness :
    ZstdWF zstdEcho ∧ XzEmbWF xzeEcho ∧
    (∀ c ∈ [[1, 2]], List.length c ≤ CHUNK) ∧
    (((dxzRun lzEcho 3 (dxzInit () [[1, 2]])).2.all xCursorOk = true) ∧
     ((dzstdRun zstdEcho 3 (dzstdInit () [[1, 2]])).2.all zCursorOk = true) ∧
     ((dembRun xzeEcho 3 (dembInit () [[1, 2]])).2.all eCursorOk = true)) := by
  have hwf2 : ZstdWF zstdEcho := by
    intro s inp cap
    exact ⟨Nat.le_refl _, Nat.zero_le _⟩
  have hwf3 : XzEmbWF xzeEcho := by
    intro s inp cap
    exact ⟨Nat.le_refl _, Nat.zero_le _⟩
  exact ⟨hwf2, hwf3, by decide,
    pump_reads_only_when_consumed lzEcho zstdEcho hwf2 xzeEcho hwf3 () () ()
      [[1, 2]] (by decide) 3⟩

/-- C3 counterexample evaluation: with a conforming engine that produces
one byte per call with status LZMA_OK, the temsxz.c loop runs further
engine invocations without writing the bytes produced by the previous
one. -/
theorem temsxz_not_drained_each_call :
    tDrainedEachCall (temsxzRun lzEager 3 (temsxzInit () [[1], [2]] none)).2
      = false := by decide

theorem temsxzBody_flush_shape {σ : Type} (E : LzCodec σ) (s : TSt σ) :
    (∃ r pl aa pa, (temsxzBody E s).2 = [TEv.code s.act r pl aa pa] ∧
       ¬((CHUNK - pa = 0 ∨ r ≠ LzRet.ok) ∧ 0 < pa)) ∨
    (∃ r pl aa pa b, (temsxzBody E s).2 =
       [TEv.code s.act r pl aa pa, TEv.write pa b] ∧
       ((CHUNK - pa = 0 ∨ r ≠ LzRet.ok) ∧ 0 < pa)) := by
  rcases hstep : E.code s.eng s.act s.availIn (CHUNK - s.pending.length)
    with ⟨st2, cons, prod, ret⟩
  by_cases htrig : CHUNK - (s.pending ++ prod).length = 0 ∨ ret ≠ LzRet.ok
  · by_cases hws : 0 < (s.pending ++ prod).length
    · cases hcap : s.outCap with
      | none =>
          right
          refine ⟨ret, prod.length, (s.availIn.drop cons).length,
            (s.pending ++ prod).length, true, ?_, htrig, hws⟩
          simp only [temsxzBody, hstep, hcap, if_pos htrig, if_pos hws]
          rw [temsxzEnd_evs]
      | some k =>
          by_cases hk : k < (s.pending ++ prod).length
          · right
            refine ⟨ret, prod.length, (s.availIn.drop cons).length,
              (s.pending ++ prod).length, false, ?_, htrig, hws⟩
            simp only [temsxzBody, hstep, hcap, if_pos htrig, if_pos hws, if_pos hk]
          · right
            refine ⟨ret, prod.length, (s.availIn.drop cons).length,
              (s.pending ++ prod).length, true, ?_, htrig, hws⟩
            simp only [temsxzBody, hstep, hcap, if_pos htrig, if_pos hws, if_neg hk]
            rw [temsxzEnd_evs]
    · left
      refine ⟨ret, prod.length, (s.availIn.drop cons).length,
        (s.pending ++ prod).length, ?_, ?_⟩
      · simp only [temsxzBody, hstep, if_pos htrig, if_neg hws]
        rw [temsxzEnd_evs]
      · intro hcon
        exact hws hcon.2
  · left
    refine ⟨ret, prod.length, (s.availIn.drop cons).length,
      (s.pending ++ prod).length, ?_, fun hcon => htrig hcon.1⟩
    simp only [temsxzBody, hstep, if_neg htrig]
    rw [temsxzEnd_evs]

theorem temsxzBody_short {σ : Type} (E : LzCodec σ) (s : TSt σ) :
    tNoShort (temsxzBody E s).2 = true ∨
    (∃ sf, (temsxzBody E s).1 = Sum.inr (1, sf)) := by
  rcases hstep : E.code s.eng s.act s.availIn (CHUNK - s.pending.length)
    with ⟨st2, cons, prod, ret⟩
  by_cases htrig : CHUNK - (s.pending ++ prod).length = 0 ∨ ret ≠ LzRet.ok
  · by_cases hws : 0 < (s.pending ++ prod).length
    · cases hcap : s.outCap with
      | none =>
          left
          simp only [temsxzBody, hstep, hcap, if_pos htrig, if_pos hws]
          rw [temsxzEnd_evs]
          rfl
      | some k =>
          by_cases hk : k < (s.pending ++ prod).length
          · right
            refine ⟨{ (({ s with
                  eng := st2, availIn := s.availIn.drop cons,
                  pending := s.pending ++ prod,
                  producedAll := s.producedAll ++ prod } : TSt σ)) with
                written := s.written ++ (s.pending ++ prod).take k,
                outCap := some 0 }, ?_⟩
            simp only [temsxzBody, hstep, hcap, if_pos htrig, if_pos hws, if_pos hk]
          · left
            simp only [temsxzBody, hstep, hcap, if_pos htrig, if_pos hws, if_neg hk]
            rw [temsxzEnd_evs]
            rfl
    · left
      simp only [temsxzBody, hstep, if_pos htrig, if_neg hws]
      rw [temsxzEnd_evs]
      rfl
  · left
    simp only [temsxzBody, hstep, if_neg htrig]
    rw [temsxzEnd_evs]
    rfl

theorem temsxzEnd_inr0 {σ : Type} (ret : LzRet) (s sf : TSt σ) (evs : List TEv)
    (h : (temsxzEnd ret s evs).1 = Sum.inr (0, sf)) : sf = s := by
  cases ret with
  | ok => exact absurd h (by simp [temsxzEnd])
  | streamEnd =>
      have h2 := Sum.inr.inj h
      exact (congrArg Prod.snd h2).symm
  | err =>
      have h2 := Sum.inr.inj h
      exact absurd (congrArg Prod.fst h2) (by simp)

theorem temsxzRead_keep {σ : Type} (s : TSt σ) :
    (temsxzRead s).1.written = s.written ∧
    (temsxzRead s).1.pending = s.pending ∧
    (temsxzRead s).1.producedAll = s.producedAll := by
  unfold temsxzRead
  by_cases hg : s.availIn.length = 0 ∧ s.eof = false
  · rw [if_pos hg]
    cases s.chunks with
    | nil => exact ⟨rfl, rfl, rfl⟩
    | cons c rest => exact ⟨rfl, rfl, rfl⟩
  · rw [if_neg hg]
    exact ⟨rfl, rfl, rfl⟩

theorem temsxzBody_W {σ : Type} (E : LzCodec σ) (s : TSt σ)
    (hW : s.written ++ s.pending = s.producedAll) :
    (∀ s2, (temsxzBody E s).1 = Sum.inl s2 →
       s2.written ++ s2.pending = s2.producedAll) ∧
    (∀ sf, (temsxzBody E s).1 = Sum.inr (0, sf) →
       sf.pending = [] ∧ sf.written = sf.producedAll) := by
  rcases hstep : E.code s.eng s.act s.availIn (CHUNK - s.pending.length)
    with ⟨st2, cons, prod, ret⟩
  have hW2 : s.written ++ (s.pending ++ prod) = s.producedAll ++ prod := by
    rw [← List.append_assoc, hW]
  by_cases htrig : CHUNK - (s.pending ++ prod).length = 0 ∨ ret ≠ LzRet.ok
  · by_cases hws : 0 < (s.pending ++ prod).length
    · cases hcap : s.outCap with
      | none =>
          constructor
          · intro s2 h
            simp only [temsxzBody, hstep, hcap, if_pos htrig, if_pos hws] at h
            have h2 := temsxzEnd_inl _ _ _ _ h
            rw [h2]
            show (s.written ++ (s.pending ++ prod)) ++ [] = s.producedAll ++ prod
            rw [List.append_nil, hW2]
          · intro sf h
            simp only [temsxzBody, hstep, hcap, if_pos htrig, if_pos hws] at h
            have h2 := temsxzEnd_inr0 _ _ _ _ h
            rw [h2]
            exact ⟨rfl, hW2⟩
      | some k =>
          by_cases hk : k < (s.pending ++ prod).length
          · constructor
            · intro s2 h
              simp only [temsxzBody, hstep, hcap, if_pos htrig, if_pos hws,
                if_pos hk] at h
              exact Sum.noConfusion h
            · intro sf h
              simp only [temsxzBody, hstep, hcap, if_pos htrig, if_pos hws,
                if_pos hk] at h
              have h2 := Sum.inr.inj h
              exact absurd (congrArg Prod.fst h2) (by simp)
          · constructor
            · intro s2 h
              simp only [temsxzBody, hstep, hcap, if_pos htrig, if_pos hws,
                if_neg hk] at h
              have h2 := temsxzEnd_inl _ _ _ _ h
              rw [h2]
              show (s.written ++ (s.pending ++ prod)) ++ [] = s.producedAll ++ prod
              rw [List.append_nil, hW2]
            · intro sf h
              simp only [temsxzBody, hstep, hcap, if_pos htrig, if_pos hws,
                if_neg hk] at h
              have h2 := temsxzEnd_inr0 _ _ _ _ h
              rw [h2]
              exact ⟨rfl, hW2⟩
    · have hnil : s.pending ++ prod = [] := by
        rcases List.eq_nil_or_concat (s.pending ++ prod) with h0 | ⟨l2, a, h0⟩
        · exact h0
        · exact absurd (by rw [h0]; simp) hws
      constructor
      · intro s2 h
        simp only [temsxzBody, hstep, if_pos htrig, if_neg hws] at h
        have h2 := temsxzEnd_inl _ _ _ _ h
        rw [h2]
        show s.written ++ (s.pending ++ prod) = s.producedAll ++ prod
        rw [hW2]
      · intro sf h
        simp only [temsxzBody, hstep, if_pos htrig, if_neg hws] at h
        have h2 := temsxzEnd_inr0 _ _ _ _ h
        rw [h2]
        constructor
        · exact hnil
        · show s.written = s.producedAll ++ prod
          have h3 := hW2
          rw [hnil, List.append_nil] at h3
          exact h3
  · have hok : ret = LzRet.ok := by
      by_contra hne
      exact htrig (Or.inr hne)
    constructor
    · intro s2 h
      simp only [temsxzBody, hstep, if_neg htrig] at h
      have h2 := temsxzEnd_inl _ _ _ _ h
      rw [h2]
      show s.written ++ (s.pending ++ prod) = s.producedAll ++ prod
      rw [hW2]
    · intro sf h
      simp only [temsxzBody, hstep, if_neg htrig] at h
      rw [hok] at h
      exact Sum.noConfusion h

theorem tNoShort_append (a b : List TEv) (ha : tNoShort a = true)
    (hb : tNoShort b = true) : tNoShort (a ++ b) = true := by
  induction a with
  | nil => simpa using hb
  | cons e rest ih =>
      cases e with
      | read p f g =>
          rw [tNoShort] at ha
          rw [List.cons_append, tNoShort]
          exact ih ha
      | code a2 r pl aa pa =>
          rw [tNoShort] at ha
          rw [List.cons_append, tNoShort]
          exact ih ha
      | write n ok =>
          cases ok with
          | true =>
              rw [tNoShort] at ha
              rw [List.cons_append, tNoShort]
              exact ih ha
          | false =>
              rw [tNoShort] at ha
              exact absurd ha (by simp)

theorem t_exit_drained_aux {σ : Type} (E : LzCodec σ) :
    ∀ fuel (s : TSt σ), s.written ++ s.pending = s.producedAll →
      tExitDrained (temsxzRun E fuel s) = true := by
  intro fuel
  induction fuel with
  | zero => intro s _; rfl
  | succ f ih =>
      intro s hW
      have hrun : temsxzRun E (f + 1) s =
          (match temsxzIter E s with
           | (Sum.inr r, evs) => (some r, evs)
           | (Sum.inl s2, evs) =>
               ((temsxzRun E f s2).1, evs ++ (temsxzRun E f s2).2)) := rfl
      rw [hrun]
      have hiter : temsxzIter E s = ((temsxzBody E (temsxzRead s).1).1,
          (temsxzRead s).2 ++ (temsxzBody E (temsxzRead s).1).2) := rfl
      rw [hiter]
      have hkeep := temsxzRead_keep s
      have hW2 : (temsxzRead s).1.written ++ (temsxzRead s).1.pending =
          (temsxzRead s).1.producedAll := by
        rw [hkeep.1, hkeep.2.1, hkeep.2.2]
        exact hW
      have hbw := temsxzBody_W E (temsxzRead s).1 hW2
      rcases hbody : temsxzBody E (temsxzRead s).1 with ⟨o, evs⟩
      rw [hbody] at hbw
      cases o with
      | inr r =>
          rcases r with ⟨c, sf⟩
          cases c with
          | zero =>
              have hd := hbw.2 sf rfl
              show tExitDrained (some (0, sf), (temsxzRead s).2 ++ evs) = true
              unfold tExitDrained
              simp [hd.1, hd.2]
          | succ c2 =>
              show tExitDrained (some (c2 + 1, sf), (temsxzRead s).2 ++ evs) = true
              rfl
      | inl s2 =>
          show tExitDrained
            ((temsxzRun E f s2).1,
              ((temsxzRead s).2 ++ evs) ++ (temsxzRun E f s2).2) = true
          have hW3 := hbw.1 s2 rfl
          have := ih s2 hW3
          unfold tExitDrained at this ⊢
          exact this

theorem temsxzRead_noshort {σ : Type} (s : TSt σ) :
    tNoShort (temsxzRead s).2 = true := by
  rcases temsxzRead_shape s with h | ⟨p, fl, g, h⟩
  · rw [h]; rfl
  · rw [h]; rfl

theorem t_short_aux {σ : Type} (E : LzCodec σ) :
    ∀ fuel (s : TSt σ), tShortOk (temsxzRun E fuel s) = true := by
  intro fuel
  induction fuel with
  | zero => intro s; rfl
  | succ f ih =>
      intro s
      have hrun : temsxzRun E (f + 1) s =
          (match temsxzIter E s with
           | (Sum.inr r, evs) => (some r, evs)
           | (Sum.inl s2, evs) =>
               ((temsxzRun E f s2).1, evs ++ (temsxzRun E f s2).2)) := rfl
      rw [hrun]
      have hiter : temsxzIter E s = ((temsxzBody E (temsxzRead s).1).1,
          (temsxzRead s).2 ++ (temsxzBody E (temsxzRead s).1).2) := rfl
      rw [hiter]
      rcases hbody : temsxzBody E (temsxzRead s).1 with ⟨o, evs⟩
      have hbs := temsxzBody_short E (temsxzRead s).1
      rw [hbody] at hbs
      dsimp only at hbs
      cases o with
      | inr r =>
          show tShortOk (some r, (temsxzRead s).2 ++ evs) = true
          rcases hbs with hns | ⟨sf, hsf⟩
          · unfold tShortOk
            rw [tNoShort_append _ _ (temsxzRead_noshort s) hns]
            simp
          · have hr : r = (1, sf) := Sum.inr.inj hsf
            unfold tShortOk
            rw [hr]
            simp
      | inl s2 =>
          show tShortOk ((temsxzRun E f s2).1,
            ((temsxzRead s).2 ++ evs) ++ (temsxzRun E f s2).2) = true
          rcases hbs with hns | ⟨sf, hsf⟩
          · have ih2 := ih s2
            unfold tShortOk at ih2 ⊢
            simp only [Bool.or_eq_true] at ih2 ⊢
            rcases ih2 with h1 | h2
            · left
              exact tNoShort_append _ _
                (tNoShort_append _ _ (temsxzRead_noshort s) hns) h1
            · right
              exact h2
          · exact absurd hsf (by simp)

theorem tFlushOk_read_pre {σ : Type} (s : TSt σ) (X : List TEv) :
    tFlushOk ((temsxzRead s).2 ++ X) = tFlushOk X := by
  rcases temsxzRead_shape s with h | ⟨p, fl, g, h⟩
  · rw [h, List.nil_append]
  · rw [h, List.cons_append, List.nil_append, tFlushOk]

theorem t_flush_aux {σ : Type} (E : LzCodec σ) :
    ∀ fuel (s : TSt σ), tFlushOk (temsxzRun E fuel s).2 = true ∧
      tHnw (temsxzRun E fuel s).2 = true := by
  intro fuel
  induction fuel with
  | zero => intro s; exact ⟨rfl, rfl⟩
  | succ f ih =>
      intro s
      have hrun : temsxzRun E (f + 1) s =
          (match temsxzIter E s with
           | (Sum.inr r, evs) => (some r, evs)
           | (Sum.inl s2, evs) =>
               ((temsxzRun E f s2).1, evs ++ (temsxzRun E f s2).2)) := rfl
      rw [hrun]
      have hiter : temsxzIter E s = ((temsxzBody E (temsxzRead s).1).1,
          (temsxzRead s).2 ++ (temsxzBody E (temsxzRead s).1).2) := rfl
      rw [hiter]
      rcases hbody : temsxzBody E (temsxzRead s).1 with ⟨o, evs⟩
      have hsh := temsxzBody_flush_shape E (temsxzRead s).1
      rw [hbody] at hsh
      dsimp only at hsh
      cases o with
      | inr r =>
          constructor
          · show tFlushOk ((temsxzRead s).2 ++ evs) = true
            rw [tFlushOk_read_pre]
            rcases hsh with ⟨r2, pl, aa, pa, hev, hcond⟩ |
              ⟨r2, pl, aa, pa, b, hev, hcond⟩
            · rw [hev]
              simp [tFlushOk, hcond]
            · rw [hev]
              simp [tFlushOk, hcond]
          · show tHnw ((temsxzRead s).2 ++ evs) = true
            rcases temsxzRead_shape s with hrs | ⟨p, fl, g, hrs⟩
            · rw [hrs, List.nil_append]
              rcases hsh with ⟨r2, pl, aa, pa, hev, _⟩ |
                ⟨r2, pl, aa, pa, b, hev, _⟩
              · rw [hev]; rfl
              · rw [hev]; rfl
            · rw [hrs]; rfl
      | inl s2 =>
          obtain ⟨ihf, ihh⟩ := ih s2
          constructor
          · show tFlushOk (((temsxzRead s).2 ++ evs) ++ (temsxzRun E f s2).2) = true
            rw [List.append_assoc, tFlushOk_read_pre]
            rcases hsh with ⟨r2, pl, aa, pa, hev, hcond⟩ |
              ⟨r2, pl, aa, pa, b, hev, hcond⟩
            · rw [hev, List.cons_append, List.nil_append]
              rcases htl : (temsxzRun E f s2).2 with _ | ⟨e, tl⟩
              · simp [tFlushOk, hcond]
              · rw [htl] at ihf ihh
                cases e with
                | read p2 f2 g2 =>
                    simp [tFlushOk, hcond]
                    rw [tFlushOk] at ihf
                    exact ihf
                | code a2 r3 pl2 aa2 pa2 =>
                    simp [tFlushOk, hcond]
                    exact ihf
                | write n2 b2 => exact absurd ihh (by simp [tHnw])
            · rw [hev]
              simp only [List.cons_append, List.nil_append]
              simp [tFlushOk, hcond]
              exact ihf
          · show tHnw (((temsxzRead s).2 ++ evs) ++ (temsxzRun E f s2).2) = true
            rcases temsxzRead_shape s with hrs | ⟨p, fl, g, hrs⟩
            · rw [hrs, List.nil_append]
              rcases hsh with ⟨r2, pl, aa, pa, hev, _⟩ |
                ⟨r2, pl, aa, pa, b, hev, _⟩
              · rw [hev]; rfl
              · rw [hev]; rfl
            · rw [hrs]; rfl

theorem temsxzRun_succ {σ : Type} (E : LzCodec σ) (g : Nat) (s : TSt σ) :
    temsxzRun E (g + 1) s =
      (match temsxzIter E s with
       | (Sum.inr r, evs) => (some r, evs)
       | (Sum.inl s2, evs) =>
           ((temsxzRun E g s2).1, evs ++ (temsxzRun E g s2).2)) := rfl

theorem TReaches_step {σ : Type} (E : LzCodec σ) (s s2 : TSt σ) (evs : List TEv)
    (hit : temsxzIter E s = (Sum.inl s2, evs)) (out : List Byte)
    (h : TReaches E s2 out) : TReaches E s out := by
  obtain ⟨f, hf⟩ := h
  refine ⟨f + 1, ?_⟩
  intro g hg
  cases g with
  | zero => exact absurd hg (by omega)
  | succ g2 =>
      have hg2 : f ≤ g2 := by omega
      rw [temsxzRun_succ, hit]
      exact hf g2 hg2

theorem TReaches_done {σ : Type} (E : LzCodec σ) (s sf : TSt σ) (evs : List TEv)
    (hit : temsxzIter E s = (Sum.inr (0, sf), evs)) :
    TReaches E s sf.written := by
  refine ⟨1, ?_⟩
  intro g hg
  cases g with
  | zero => exact absurd hg (by omega)
  | succ g2 =>
      rw [temsxzRun_succ, hit]
      rfl

theorem temsxzRun_fst {σ : Type} (E : LzCodec σ) (g : Nat) (s : TSt σ) :
    (temsxzRun E (g + 1) s).1 =
      (match (temsxzIter E s).1 with
       | Sum.inr r => some r
       | Sum.inl s2 => (temsxzRun E g s2).1) := by
  rcases hit : temsxzIter E s with ⟨o, evs⟩
  rw [temsxzRun_succ, hit]
  cases o with
  | inr r => rfl
  | inl s2 => rfl

theorem TReaches_congr {σ : Type} (E : LzCodec σ) (s s2 : TSt σ)
    (h : (temsxzIter E s).1 = (temsxzIter E s2).1) (out : List Byte)
    (hr : TReaches E s2 out) : TReaches E s out := by
  obtain ⟨f, hf⟩ := hr
  refine ⟨f + 1, ?_⟩
  intro g hg
  cases g with
  | zero => exact absurd hg (by omega)
  | succ g2 =>
      have hfst : (temsxzRun E (g2 + 1) s).1 = (temsxzRun E (g2 + 1) s2).1 := by
        rw [temsxzRun_fst, temsxzRun_fst, h]
      have hg2 : f ≤ g2 + 1 := by omega
      have := hf (g2 + 1) hg2
      rw [← hfst] at this
      exact this

theorem temsxzIter_noread {σ : Type} (E : LzCodec σ) (s : TSt σ)
    (hread : temsxzRead s = (s, [])) : temsxzIter E s = temsxzBody E s := by
  unfold temsxzIter
  rw [hread]
  simp

theorem dStateT_read (T : List Byte → List Byte) (K inp : List Byte) (e fl : Nat) :
    temsxzRead (dStateT T K inp e fl) = (dStateT T K inp e fl, []) := by
  unfold temsxzRead
  rw [if_neg]
  intro h
  have h2 := h.2
  simp [dStateT] at h2

theorem canonD_bodyA (T : List Byte → List Byte) (K inp : List Byte) (e fl : Nat)
    (hend : e + (((T (K ++ inp)).drop e).take CHUNK).length = (T (K ++ inp)).length) :
    ∃ evs sf, temsxzIter (canonEngine T) (dStateT T K inp e fl) =
      (Sum.inr (0, sf), evs) ∧
      sf.written = (T (K ++ inp)).take e ++ ((T (K ++ inp)).drop e).take CHUNK := by
  rw [temsxzIter_noread _ _ (dStateT_read T K inp e fl)]
  unfold temsxzBody
  simp only [dStateT, canonEngine]
  simp only [List.length_nil, Nat.sub_zero, List.nil_append]
  rw [if_pos hend]
  by_cases hws : 0 < (((T (K ++ inp)).drop e).take CHUNK).length
  · rw [if_pos (Or.inr (by decide : (LzRet.streamEnd : LzRet) ≠ LzRet.ok)),
      if_pos hws]
    refine ⟨_, _, rfl, ?_⟩
    rfl
  · rw [if_pos (Or.inr (by decide : (LzRet.streamEnd : LzRet) ≠ LzRet.ok)),
      if_neg hws]
    have hnil : ((T (K ++ inp)).drop e).take CHUNK = [] :=
      List.length_eq_zero.mp (by omega)
    refine ⟨_, _, rfl, ?_⟩
    rw [hnil, List.append_nil]

theorem canonD_bodyB (T : List Byte → List Byte) (K inp : List Byte) (e fl : Nat)
    (hne2 : e + (((T (K ++ inp)).drop e).take CHUNK).length ≠ (T (K ++ inp)).length)
    (hfull : (((T (K ++ inp)).drop e).take CHUNK).length = CHUNK) :
    ∃ evs, temsxzIter (canonEngine T) (dStateT T K inp e fl) =
      (Sum.inl (dStateT T (K ++ inp) [] (e + CHUNK) fl), evs) := by
  rw [temsxzIter_noread _ _ (dStateT_read T K inp e fl)]
  unfold temsxzBody
  simp only [dStateT, canonEngine]
  simp only [List.length_nil, Nat.sub_zero, List.nil_append]
  rw [if_neg hne2]
  have htrig : CHUNK - (((T (K ++ inp)).drop e).take CHUNK).length = 0 ∨
      (LzRet.ok : LzRet) ≠ LzRet.ok :=
    Or.inl (by rw [hfull]; exact Nat.sub_self CHUNK)
  rw [if_pos htrig]
  have hws : 0 < (((T (K ++ inp)).drop e).take CHUNK).length := by
    rw [hfull]
    decide
  rw [if_pos hws]
  simp only [temsxzEnd, dStateT, List.append_nil, List.drop_length, List.take_add,
    hfull]
  exact ⟨_, rfl⟩

theorem canonD_done (T : List Byte → List Byte) (K inp : List Byte) (e fl : Nat)
    (he : e ≤ (T (K ++ inp)).length)
    (hc : (T (K ++ inp)).length ≤ e + CHUNK) :
    TReaches (canonEngine T) (dStateT T K inp e fl) (T (K ++ inp)) := by
  have hend : e + (((T (K ++ inp)).drop e).take CHUNK).length
      = (T (K ++ inp)).length := by
    rw [List.length_take, List.length_drop]
    omega
  obtain ⟨evs, sf, hit, hw⟩ := canonD_bodyA T K inp e fl hend
  have hwf : sf.written = T (K ++ inp) := by
    rw [hw, ← List.take_add]
    exact List.take_of_length_le (by omega)
  exact hwf ▸ TReaches_done _ _ _ _ hit

theorem canonD (T : List Byte → List Byte) : ∀ (n : Nat) (K inp : List Byte)
    (e fl : Nat), e ≤ (T (K ++ inp)).length →
    (T (K ++ inp)).length ≤ e + n * CHUNK →
    TReaches (canonEngine T) (dStateT T K inp e fl) (T (K ++ inp)) := by
  intro n
  induction n with
  | zero =>
      intro K inp e fl he hL
      rw [Nat.zero_mul, Nat.add_zero] at hL
      exact canonD_done T K inp e fl he (by omega)
  | succ n ih =>
      intro K inp e fl he hL
      rw [Nat.succ_mul] at hL
      by_cases hcase : (T (K ++ inp)).length ≤ e + CHUNK
      · exact canonD_done T K inp e fl he hcase
      · have hfull : (((T (K ++ inp)).drop e).take CHUNK).length = CHUNK := by
          rw [List.length_take, List.length_drop]
          omega
        have hne2 : e + (((T (K ++ inp)).drop e).take CHUNK).length
            ≠ (T (K ++ inp)).length := by
          rw [hfull]
          omega
        obtain ⟨evs, hit⟩ := canonD_bodyB T K inp e fl hne2 hfull
        have hrec := ih (K ++ inp) [] (e + CHUNK) fl
          (by rw [List.append_nil]; omega)
          (by rw [List.append_nil]; omega)
        rw [List.append_nil] at hrec
        exact TReaches_step _ _ _ _ hit _ hrec

theorem rStateT_read_nil (T : List Byte → List Byte) (K : List Byte) (fl : Nat) :
    temsxzRead (rStateT K [] fl) = (dStateT T K [] 0 0, [TEv.read 0 fl 0]) := by
  simp [temsxzRead, rStateT, dStateT]

theorem rStateT_read_last (T : List Byte → List Byte) (K c : List Byte) (fl : Nat) :
    temsxzRead (rStateT K [c] fl) =
      (dStateT T K c 0 c.length, [TEv.read 0 fl c.length]) := by
  simp [temsxzRead, rStateT, dStateT]

theorem rStateT_read_more (K c c2 : List Byte) (r2 : List (List Byte)) (fl : Nat) :
    temsxzRead (rStateT K (c :: c2 :: r2) fl) =
      ({ eng := ⟨K, 0⟩, chunks := c2 :: r2, eof := false, availIn := c,
         fillLen := c.length, pending := [], act := LzAction.run,
         written := [], producedAll := [], outCap := none },
       [TEv.read 0 fl c.length]) := by
  simp [temsxzRead, rStateT]

theorem canonR_step (T : List Byte → List Byte) (K c c2 : List Byte)
    (r2 : List (List Byte)) (fl : Nat) :
    ∃ evs, temsxzIter (canonEngine T) (rStateT K (c :: c2 :: r2) fl) =
      (Sum.inl (rStateT (K ++ c) (c2 :: r2) c.length), evs) := by
  unfold temsxzIter
  rw [rStateT_read_more K c c2 r2 fl]
  dsimp only
  unfold temsxzBody
  simp only [canonEngine]
  simp only [List.nil_append, List.append_nil, List.length_nil, List.drop_length]
  rw [if_neg (by decide : ¬(CHUNK - 0 = 0 ∨ (LzRet.ok : LzRet) ≠ LzRet.ok))]
  simp only [temsxzEnd, rStateT]
  exact ⟨_, rfl⟩

theorem rStateT_iter_nil (T : List Byte → List Byte) (K : List Byte) (fl : Nat) :
    (temsxzIter (canonEngine T) (rStateT K [] fl)).1
      = (temsxzIter (canonEngine T) (dStateT T K [] 0 0)).1 := by
  rw [temsxzIter_noread _ _ (dStateT_read T K [] 0 0)]
  unfold temsxzIter
  rw [rStateT_read_nil T K fl]

theorem rStateT_iter_last (T : List Byte → List Byte) (K c : List Byte) (fl : Nat) :
    (temsxzIter (canonEngine T) (rStateT K [c] fl)).1
      = (temsxzIter (canonEngine T) (dStateT T K c 0 c.length)).1 := by
  rw [temsxzIter_noread _ _ (dStateT_read T K c 0 c.length)]
  unfold temsxzIter
  rw [rStateT_read_last T K c fl]

theorem lenLe_nMul (L : Nat) : L ≤ 0 + L * CHUNK := by
  rw [Nat.zero_add]
  calc L = L * 1 := (Nat.mul_one L).symm
    _ ≤ L * CHUNK := Nat.mul_le_mul_left L (by decide)

theorem canonR (T : List Byte → List Byte) : ∀ (cs : List (List Byte))
    (K : List Byte) (fl : Nat),
    TReaches (canonEngine T) (rStateT K cs fl) (T (K ++ listJoin cs)) := by
  intro cs
  induction cs with
  | nil =>
      intro K fl
      have hd := canonD T ((T (K ++ [])).length) K [] 0 0 (Nat.zero_le _)
        (lenLe_nMul _)
      show TReaches (canonEngine T) (rStateT K [] fl) (T (K ++ []))
      exact TReaches_congr _ _ _ (rStateT_iter_nil T K fl) _ hd
  | cons c rest ih =>
      intro K fl
      cases rest with
      | nil =>
          have hd := canonD T ((T (K ++ c)).length) K c 0 c.length (Nat.zero_le _)
            (lenLe_nMul _)
          show TReaches (canonEngine T) (rStateT K [c] fl) (T (K ++ (c ++ [])))
          rw [List.append_nil]
          exact TReaches_congr _ _ _ (rStateT_iter_last T K c fl) _ hd
      | cons c2 r2 =>
          obtain ⟨evs, hit⟩ := canonR_step T K c c2 r2 fl
          have hrec := ih (K ++ c) c.length
          rw [List.append_assoc] at hrec
          exact TReaches_step _ _ _ _ hit _ hrec

theorem canonMaster (T : List Byte → List Byte) (cs : List (List Byte)) :
    TReaches (canonEngine T) (temsxzInit ⟨[], 0⟩ cs none) (T (listJoin cs)) := by
  have h := canonR T cs [] 0
  rw [List.nil_append] at h
  exact h

/-- C2: on a zero-byte input stream the decode-direction driver of
decompress_zstd.c terminates with exit status 0 and empty output, not the
non-zero exit the specification requires (its `input.size == 0` check
breaks out of the loop with `return 0` before the engine ever sees the
missing container header); the encode-direction temsxz.c driver on a
zero-byte input stream terminates with exit 0 and output T([]), the
engine's container for the empty payload, as specified. -/
theorem empty_input_decode_accepted :
    ((dzstdRun zstdNeedMore 1 (dzstdInit 0 [])).1.map
        (fun r => (r.1, r.2.written))) = some (0, ([] : List Byte)) ∧
    (∀ T : List Byte → List Byte,
      TReaches (canonEngine T) (temsxzInit ⟨[], 0⟩ [] none) (T [])) :=
  ⟨by decide, fun T => canonMaster T []⟩

/-- C3 (amended): in every run of the temsxz.c loop, the output buffer is
flushed exactly when an engine invocation leaves it full (`avail_out ==
0`) or returns a status other than LZMA_OK — not after every invocation
that produced bytes; an incomplete fwrite terminates the run with exit 1;
a run that exits 0 leaves the buffer empty with every byte the engine ever
produced written out.  In every run of the decompress_gzip.c loop, each
non-fatal engine invocation is immediately followed by a write of exactly
the bytes it produced. -/
theorem drivers_flush_discipline {σ1 σ2 : Type} (E1 : LzCodec σ1)
    (E2 : ZlibInf σ2) (e1 : σ1) (e2 : σ2) (cs1 cs2 : List (List Byte))
    (cap : Option Nat) (fuel1 fuel2 : Nat) :
    tFlushOk (temsxzRun E1 fuel1 (temsxzInit e1 cs1 cap)).2 = true ∧
    tShortOk (temsxzRun E1 fuel1 (temsxzInit e1 cs1 cap)) = true ∧
    tExitDrained (temsxzRun E1 fuel1 (temsxzInit e1 cs1 cap)) = true ∧
    gzPaired (dgzipRun E2 fuel2 ⟨e2, cs2, []⟩).2 = true :=
  ⟨(t_flush_aux E1 fuel1 _).1, t_short_aux E1 fuel1 _,
   t_exit_drained_aux E1 fuel1 _ rfl, dgzipRun_paired E2 fuel2 _⟩

/-- C5: for a backend supporting both directions, modelled as a pure
encode transform and a pure decode transform with decode ∘ encode the
identity, the temsxz.c loop run in encode direction on any chunking of a
byte sequence B terminates with exit 0 and output encode(B), and the loop
run in decode direction on any chunking of encode(B) terminates with exit
0 and output exactly B. -/
theorem temsxz_round_trip (enc dec : List Byte → List Byte)
    (hrt : ∀ b, dec (enc b) = b) (cs ds : List (List Byte))
    (hds : listJoin ds = enc (listJoin cs)) :
    TReaches (canonEngine enc) (temsxzInit ⟨[], 0⟩ cs none) (enc (listJoin cs)) ∧
    TReaches (canonEngine dec) (temsxzInit ⟨[], 0⟩ ds none) (listJoin cs) :=
  ⟨canonMaster enc cs, by
    have h := canonMaster dec ds
    rw [hds, hrt] at h
    exact h⟩

theorem temsxz_round_trip_witness :
    (∀ b : List Byte, (fun l : List Byte => l) ((fun l : List Byte => l) b) = b) ∧
    listJoin [[7, 8]] = (fun l : List Byte => l) (listJoin [[7], [8]]) ∧
    (TReaches (canonEngine (fun l : List Byte => l))
        (temsxzInit ⟨[], 0⟩ [[7], [8]] none)
        ((fun l : List Byte => l) (listJoin [[7], [8]])) ∧
     TReaches (canonEngine (fun l : List Byte => l))
        (temsxzInit ⟨[], 0⟩ [[7, 8]] none) (listJoin [[7], [8]])) :=
  ⟨fun b => rfl, by decide,
    temsxz_round_trip (fun l : List Byte => l) (fun l : List Byte => l)
      (fun b => rfl) [[7], [8]] [[7, 8]] (by decide)⟩

theorem dxzRun_succ {σ : Type} (E : LzCodec σ) (g : Nat) (s : XSt σ) :
    dxzRun E (g + 1) s =
      (match dxzIter E s with
       | (Sum.inr r, evs) => (some r, evs)
       | (Sum.inl s2, evs) =>
           ((dxzRun E g s2).1, evs ++ (dxzRun E g s2).2)) := rfl

theorem XReaches_step {σ : Type} (E : LzCodec σ) (s s2 : XSt σ) (evs : List XEv)
    (hit : dxzIter E s = (Sum.inl s2, evs)) (out : List Byte)
    (h : XReaches E s2 out) : XReaches E s out := by
  obtain ⟨f, hf⟩ := h
  refine ⟨f + 1, ?_⟩
  intro g hg
  cases g with
  | zero => exact absurd hg (by omega)
  | succ g2 =>
      have hg2 : f ≤ g2 := by omega
      rw [dxzRun_succ, hit]
      exact hf g2 hg2

theorem XReaches_done {σ : Type} (E : LzCodec σ) (s sf : XSt σ) (evs : List XEv)
    (hit : dxzIter E s = (Sum.inr (0, sf), evs)) :
    XReaches E s sf.written := by
  refine ⟨1, ?_⟩
  intro g hg
  cases g with
  | zero => exact absurd hg (by omega)
  | succ g2 =>
      rw [dxzRun_succ, hit]
      rfl

theorem canonDX_bodyA (T : List Byte → List Byte) (K : List Byte) (e fl : Nat)
    (a : LzAction)
    (hend : e + (((T K).drop e).take CHUNK).length = (T K).length) :
    ∃ evs sf, dxzIter (canonEngine T) (dStateX T K e fl a) =
      (Sum.inr (0, sf), evs) ∧
      sf.written = (T K).take e ++ ((T K).drop e).take CHUNK := by
  unfold dxzIter
  simp only [dStateX]
  simp only [List.length_nil]
  rw [if_pos trivial]
  unfold dxzBody
  simp only [canonEngine]
  simp only [List.append_nil, List.length_nil, List.drop_nil]
  rw [if_pos hend]
  exact ⟨_, _, rfl, rfl⟩

theorem canonDX_bodyB (T : List Byte → List Byte) (K : List Byte) (e fl : Nat)
    (a : LzAction)
    (hne2 : e + (((T K).drop e).take CHUNK).length ≠ (T K).length)
    (hfull : (((T K).drop e).take CHUNK).length = CHUNK) :
    ∃ evs, dxzIter (canonEngine T) (dStateX T K e fl a) =
      (Sum.inl (dStateX T K (e + CHUNK) 0 LzAction.finish), evs) := by
  unfold dxzIter
  simp only [dStateX]
  simp only [List.length_nil]
  rw [if_pos trivial]
  unfold dxzBody
  simp only [canonEngine]
  simp only [List.append_nil, List.length_nil, List.drop_nil]
  rw [if_neg hne2]
  simp only [List.take_add, hfull]
  exact ⟨_, rfl⟩

theorem canonDX_done (T : List Byte → List Byte) (K : List Byte) (e fl : Nat)
    (a : LzAction) (he : e ≤ (T K).length) (hc : (T K).length ≤ e + CHUNK) :
    XReaches (canonEngine T) (dStateX T K e fl a) (T K) := by
  have hend : e + (((T K).drop e).take CHUNK).length = (T K).length := by
    rw [List.length_take, List.length_drop]
    omega
  obtain ⟨evs, sf, hit, hw⟩ := canonDX_bodyA T K e fl a hend
  have hwf : sf.written = T K := by
    rw [hw, ← List.take_add]
    exact List.take_of_length_le (by omega)
  exact hwf ▸ XReaches_done _ _ _ _ hit

theorem canonDX (T : List Byte → List Byte) : ∀ (n : Nat) (K : List Byte)
    (e fl : Nat) (a : LzAction), e ≤ (T K).length →
    (T K).length ≤ e + n * CHUNK →
    XReaches (canonEngine T) (dStateX T K e fl a) (T K) := by
  intro n
  induction n with
  | zero =>
      intro K e fl a he hL
      rw [Nat.zero_mul, Nat.add_zero] at hL
      exact canonDX_done T K e fl a he (by omega)
  | succ n ih =>
      intro K e fl a he hL
      rw [Nat.succ_mul] at hL
      by_cases hcase : (T K).length ≤ e + CHUNK
      · exact canonDX_done T K e fl a he hcase
      · have hfull : (((T K).drop e).take CHUNK).length = CHUNK := by
          rw [List.length_take, List.length_drop]
          omega
        have hne2 : e + (((T K).drop e).take CHUNK).length ≠ (T K).length := by
          rw [hfull]
          omega
        obtain ⟨evs, hit⟩ := canonDX_bodyB T K e fl a hne2 hfull
        exact XReaches_step _ _ _ _ hit _
          (ih K (e + CHUNK) 0 LzAction.finish (by omega) (by omega))

theorem canonRX_step (T : List Byte → List Byte) (K c : List Byte)
    (rest : List (List Byte)) (fl : Nat) (hc : c.length ≠ 0) :
    ∃ evs, dxzIter (canonEngine T) (rStateX K (c :: rest) fl) =
      (Sum.inl (rStateX (K ++ c) rest c.length), evs) := by
  unfold dxzIter
  simp only [rStateX]
  simp only [List.length_nil]
  rw [if_pos trivial]
  rw [if_neg hc]
  unfold dxzBody
  simp only [canonEngine]
  simp only [List.append_nil, List.drop_length]
  exact ⟨_, rfl⟩

theorem canonRX (T : List Byte → List Byte) : ∀ (cs : List (List Byte))
    (K : List Byte) (fl : Nat), (∀ c ∈ cs, c.length ≠ 0) →
    XReaches (canonEngine T) (rStateX K cs fl) (T (K ++ listJoin cs)) := by
  intro cs
  induction cs with
  | nil =>
      intro K fl _
      show XReaches (canonEngine T) (rStateX K [] fl) (T (K ++ []))
      rw [List.append_nil]
      exact canonDX T ((T K).length) K 0 fl LzAction.run (Nat.zero_le _)
        (lenLe_nMul _)
  | cons c rest ih =>
      intro K fl hne
      obtain ⟨evs, hit⟩ := canonRX_step T K c rest fl
        (hne c (List.mem_cons_self c rest))
      have hrec := ih (K ++ c) c.length
        (fun c2 hc2 => hne c2 (List.mem_cons_of_mem c hc2))
      rw [List.append_assoc] at hrec
      exact XReaches_step _ _ _ _ hit _ hrec

theorem canonMasterX (T : List Byte → List Byte) (cs : List (List Byte))
    (hne : ∀ c ∈ cs, c.length ≠ 0) :
    XReaches (canonEngine T) (dxzInit ⟨[], 0⟩ cs) (T (listJoin cs)) := by
  have h := canonRX T cs [] 0 hne
  rw [List.nil_append] at h
  exact h

/-- C4: against the canonical engine realizing a pure stream transform T
under the backend contract, the temsxz.c loop and the decompress_xz.c
loop, each run on any two chunkings that deliver the same concatenated
input bytes, terminate with exit 0 and byte-identical output T(bytes):
the output depends only on the concatenated input, never on the chunk
boundaries of the reads.  The chunks are assumed nonempty, as fread
delivers a nonzero byte count until end of file (a 0-byte read means end
of file to both drivers and switches them to the finish action). -/
theorem temsxz_chunk_boundary_invariance (T : List Byte → List Byte)
    (cs1 cs2 : List (List Byte)) (h : listJoin cs1 = listJoin cs2)
    (h1 : ∀ c ∈ cs1, c.length ≠ 0) (h2 : ∀ c ∈ cs2, c.length ≠ 0) :
    (TReaches (canonEngine T) (temsxzInit ⟨[], 0⟩ cs1 none) (T (listJoin cs1)) ∧
     TReaches (canonEngine T) (temsxzInit ⟨[], 0⟩ cs2 none) (T (listJoin cs1))) ∧
    (XReaches (canonEngine T) (dxzInit ⟨[], 0⟩ cs1) (T (listJoin cs1)) ∧
     XReaches (canonEngine T) (dxzInit ⟨[], 0⟩ cs2) (T (listJoin cs1))) :=
  ⟨⟨canonMaster T cs1, by rw [h]; exact canonMaster T cs2⟩,
   ⟨canonMasterX T cs1 h1, by rw [h]; exact canonMasterX T cs2 h2⟩⟩

theorem temsxz_chunk_boundary_invariance_witness :
    listJoin [[1, 2], [3]] = listJoin [[1], [2], [3]] ∧
    (∀ c ∈ ([[1, 2], [3]] : List (List Byte)), List.length c ≠ 0) ∧
    (∀ c ∈ ([[1], [2], [3]] : List (List Byte)), List.length c ≠ 0) ∧
    ((TReaches (canonEngine (fun l => l)) (temsxzInit ⟨[], 0⟩ [[1, 2], [3]] none)
        ((fun l => l) (listJoin [[1, 2], [3]])) ∧
      TReaches (canonEngine (fun l => l)) (temsxzInit ⟨[], 0⟩ [[1], [2], [3]] none)
        ((fun l => l) (listJoin [[1, 2], [3]]))) ∧
     (XReaches (canonEngine (fun l => l)) (dxzInit ⟨[], 0⟩ [[1, 2], [3]])
        ((fun l => l) (listJoin [[1, 2], [3]])) ∧
      XReaches (canonEngine (fun l => l)) (dxzInit ⟨[], 0⟩ [[1], [2], [3]])
        ((fun l => l) (listJoin [[1, 2], [3]])))) :=
  ⟨by decide, by decide, by decide,
    temsxz_chunk_boundary_invariance (fun l => l) [[1, 2], [3]] [[1], [2], [3]]
      (by decide) (by decide) (by decide)⟩
